import Mathlib

/-!
Verification development for the MailMigration repository
(src/migrate.py, src/attachments.py, src/stats.py, src/config.py).

The Python source is shallowly embedded: pure functions become Lean
functions over `String` / `List Char` / `Nat`; code performing I/O or
raising exceptions is modelled with explicit event traces and `Except`.
Python string values are modelled as Lean `String`s (sequences of
Unicode scalar values), bytes as `Nat`s below 256.

Modelling conventions, noted once here:
* `str.replace` with a single-character pattern is a character map;
  with a multi-character pattern it is a left-to-right non-overlapping
  scan (`replaceSub` below).
* `str.upper` / `str.lower` are modelled per character with
  `Char.toUpper` / `Char.toLower`.  (Python's full Unicode case
  mapping can change string length, e.g. for U+00DF; no claim in this
  development depends on such characters.)
* `str.strip` uses `Char.isWhitespace`.
-/

namespace MailMigration

/-- Python `s.replace(a, b)` for a single-character pattern `a` and
single-character replacement `b`: a character map. -/
def replaceChar (a b : Char) (s : String) : String :=
  ⟨s.data.map (fun c => if c = a then b else c)⟩

/-- The character map of `replaceChar '/' '.'` on character lists. -/
def mapDot (l : List Char) : List Char :=
  l.map (fun c => if c = '/' then '.' else c)

/-- Python `s.lstrip(a)` for a single character `a`. -/
def lstripChar (a : Char) (s : String) : String :=
  ⟨s.data.dropWhile (· = a)⟩

/-- Python `s.rstrip(a)` for a single character `a`, on character lists. -/
def rstripCharList (a : Char) (l : List Char) : List Char :=
  (l.reverse.dropWhile (· = a)).reverse

/-- Python `s.strip()` on a character list: drop whitespace from both ends. -/
def stripWS (l : List Char) : List Char :=
  (l.dropWhile Char.isWhitespace).reverse.dropWhile Char.isWhitespace |>.reverse

/-- Python `s.upper()`, modelled per character. -/
def upperStr (s : String) : String :=
  ⟨s.data.map Char.toUpper⟩

/-- Python `s.lower()`, modelled per character. -/
def lowerStr (s : String) : String :=
  ⟨s.data.map Char.toLower⟩

/-- Python `s.replace(pat, rep)` for a multi-character pattern:
left-to-right, non-overlapping, the replacement is not rescanned.
Structural recursion on a fuel bounded by the input length; every step
consumes at least one character, so the fuel-exhausted branch (which
returns the remainder unchanged) is unreachable from `replaceSub`. -/
def replaceSubF (pat rep : List Char) : Nat → List Char → List Char
  | 0, l => l
  | _ + 1, [] => []
  | n + 1, c :: cs =>
    if pat.isPrefixOf (c :: cs) ∧ pat ≠ [] then
      rep ++ replaceSubF pat rep n ((c :: cs).drop pat.length)
    else
      c :: replaceSubF pat rep n cs

/-- Python `s.replace(pat, rep)` for a multi-character pattern. -/
def replaceSub (pat rep : List Char) (l : List Char) : List Char :=
  replaceSubF pat rep l.length l

/-- `clean_gmail_label` (src/migrate.py:149): removes every occurrence of
the `[Gmail]/` prefix substring and any leading backslashes. -/
def clean_gmail_label (label : String) : String :=
  lstripChar '\\' ⟨replaceSub "[Gmail]/".data [] label.data⟩

/-- The configuration read from config.json by src/migrate.py:
`FOLDER_MAPPING` (a dict, modelled as an association list with unique
keys; values may be null = `none`), `DEFAULT_ARCHIVE_FOLDER`, and
`FOLDER_PREFIX` (field `pfx`). -/
structure MapCfg where
  folder_mapping : List (String × Option String)
  archive : String
  pfx : String
deriving DecidableEq

/-- Python `label.count("/")`: occurrences of the separator character. -/
def labelDepth (s : String) : Nat :=
  s.data.count '/'

/-- One insertion step of a stable descending-by-depth sort.  An element
is placed before the first existing element whose depth does not exceed
its own, so earlier list elements precede later ones on ties. -/
def insertDescByDepth (x : String) : List String → List String
  | [] => [x]
  | y :: ys =>
    if labelDepth y ≤ labelDepth x then x :: y :: ys
    else y :: insertDescByDepth x ys

/-- Python `sorted(labels, key=lambda x: x.count("/"), reverse=True)`:
a stable sort, descending by depth (ties keep input order). -/
def sortDescByDepth : List String → List String
  | [] => []
  | x :: xs => insertDescByDepth x (sortDescByDepth xs)

/-- The rule-2 loop of `map_labels_to_destination` (src/migrate.py:133):
return the mapping-table entry of the first cleaned label present in the
table — whether that entry is null (`some none`) or not. -/
def mappingLoop (table : List (String × Option String)) : List String → Option (Option String)
  | [] => none
  | l :: ls =>
    match table.lookup l with
    | some v => some v
    | none => mappingLoop table ls

/-- Body of `map_labels_to_destination` (src/migrate.py:107) after the
`isinstance` normalisation: rules 0–4 applied in order. -/
def map_labels_list (cfg : MapCfg) (gmail_labels : List String) : Option String :=
  if "[Gmail]" ∈ gmail_labels then none
  else if "[Gmail]/Inbox" ∈ gmail_labels
      ∨ gmail_labels.any (fun lbl => upperStr (clean_gmail_label lbl) = "INBOX") then
    some "INBOX"
  else
    let cleaned_labels := gmail_labels.map clean_gmail_label
    match mappingLoop cfg.folder_mapping cleaned_labels with
    | some v => v
    | none =>
      match cleaned_labels with
      | [] => some cfg.archive
      | c :: cs =>
        some (replaceChar '/' '.' (cfg.pfx ++ (sortDescByDepth (c :: cs)).headD ""))

/-- Dynamic argument of `map_labels_to_destination`: either a bare folder
name string or a list of labels. -/
inductive LabelsArg where
  | str (s : String)
  | list (l : List String)
deriving DecidableEq

/-- `map_labels_to_destination` (src/migrate.py:107): a bare string is
first wrapped into a one-element list (`isinstance` check). -/
def map_labels_to_destination (cfg : MapCfg) : LabelsArg → Option String
  | .str s => map_labels_list cfg [s]
  | .list l => map_labels_list cfg l

/-- Claim-side definition (from the spec's words, for claim C2): look up
each cleaned label in input order and return the first non-null hit,
labels whose entry is null do not terminate the lookup. -/
def firstNonNullHit (table : List (String × Option String)) : List String → Option String
  | [] => none
  | l :: ls =>
    match table.lookup l with
    | some (some v) => some v
    | _ => firstNonNullHit table ls

/-- Claim-side definition (from the spec's words, for claim C3): the
label with the greatest depth, ties broken by first occurrence; `best`
is the current leftmost maximum. -/
def firstDeepest (best : String) : List String → String
  | [] => best
  | y :: ys => firstDeepest (if labelDepth best < labelDepth y then y else best) ys

/-!
## Folder-name codec (modified UTF-7), src/migrate.py:160-190

Bytes are modelled as `Nat`s below 256.  `base64.b64decode` (with its
default `validate=False`) is modelled for inputs without interior
padding, as arise in this code: characters outside the base64 alphabet
are discarded, a total length (padding included) that is not a multiple
of four is an `Incorrect padding` error, and a data length congruent to
1 mod 4 is likewise an error.  `bytes.decode("utf-16-be")` errors on an
odd byte count or a lone surrogate.  An `Except Unit` value stands for
a raised exception.
-/

/-- The standard base64 alphabet in value order. -/
def b64chars : List Char :=
  "ABCDEFGHIJKLMNOPQRSTUVWXYZabcdefghijklmnopqrstuvwxyz0123456789+/".data

/-- Character of a 6-bit value (only ever applied below 64). -/
def b64char (n : Nat) : Char :=
  b64chars.getD n '?'

/-- Value of a base64 alphabet character, `none` for other characters. -/
def b64val (c : Char) : Option Nat :=
  b64chars.findIdx? (fun x => x = c)

/-- `base64.b64encode`: bytes to base64 characters, `=`-padded. -/
def b64encodeRaw : List Nat → List Char
  | [] => []
  | [a] => [b64char (a / 4), b64char (a % 4 * 16), '=', '=']
  | [a, b] => [b64char (a / 4), b64char (a % 4 * 16 + b / 16), b64char (b % 16 * 4), '=']
  | a :: b :: c :: rest =>
    b64char (a / 4) :: b64char (a % 4 * 16 + b / 16) ::
      b64char (b % 16 * 4 + c / 64) :: b64char (c % 64) :: b64encodeRaw rest

/-- Quads of 6-bit values back to bytes (the `[_]` case is unreachable
behind the mod-4 guards of `b64decodeModel`). -/
def b64decodeVals : List Nat → List Nat
  | [] => []
  | [_] => []
  | [a, b] => [a * 4 + b / 16]
  | [a, b, c] => [a * 4 + b / 16, b % 16 * 16 + c / 4]
  | a :: b :: c :: d :: rest =>
    [a * 4 + b / 16, b % 16 * 16 + c / 4, c % 4 * 64 + d] ++ b64decodeVals rest

/-- `base64.b64decode` with `validate=False`, as described in the section
comment above. -/
def b64decodeModel (cs : List Char) : Except Unit (List Nat) :=
  let kept := cs.filter (fun c => (b64val c).isSome || c = '=')
  let data := kept.takeWhile (· ≠ '=')
  if kept.length % 4 ≠ 0 then .error ()
  else if data.length % 4 = 1 then .error ()
  else .ok (b64decodeVals (data.map (fun c => (b64val c).getD 0)))

/-- `str.encode("utf-16-be")`: big-endian UTF-16 code units as bytes;
scalar values above U+FFFF become surrogate pairs. -/
def utf16beBytes : List Char → List Nat
  | [] => []
  | c :: cs =>
    (if c.toNat < 0x10000 then
      [c.toNat / 256, c.toNat % 256]
    else
      let v := c.toNat - 0x10000
      [(0xD800 + v / 0x400) / 256, (0xD800 + v / 0x400) % 256,
       (0xDC00 + v % 0x400) / 256, (0xDC00 + v % 0x400) % 256]) ++ utf16beBytes cs

/-- `bytes.decode("utf-16-be")`: errors on an odd byte count or a lone
surrogate, combines surrogate pairs into supplementary scalar values. -/
def utf16beDecode : List Nat → Except Unit (List Char)
  | [] => .ok []
  | [_] => .error ()
  | b1 :: b2 :: rest =>
    let u := b1 * 256 + b2
    if 0xD800 ≤ u ∧ u ≤ 0xDBFF then
      match rest with
      | b3 :: b4 :: rest2 =>
        let v := b3 * 256 + b4
        if 0xDC00 ≤ v ∧ v ≤ 0xDFFF then
          match utf16beDecode rest2 with
          | .ok tl => .ok (Char.ofNat (0x10000 + (u - 0xD800) * 0x400 + (v - 0xDC00)) :: tl)
          | .error e => .error e
        else .error ()
      | _ => .error ()
    else if 0xDC00 ≤ u ∧ u ≤ 0xDFFF then .error ()
    else
      match utf16beDecode rest with
      | .ok tl => .ok (Char.ofNat u :: tl)
      | .error e => .error e

/-- The `decode_match` inner function of `decode_imap_utf7`
(src/migrate.py:162): restore `/` from `,`, re-pad, base64-decode,
then decode as UTF-16-BE. -/
def decodeGroup (grp : List Char) : Except Unit (List Char) := do
  let b64 := grp.map (fun c => if c = ',' then '/' else c)
  let padded := b64 ++ List.replicate ((4 - b64.length % 4) % 4) '='
  let bytes ← b64decodeModel padded
  utf16beDecode bytes

/-- The regex substitution scan of `decode_imap_utf7` (pattern: an
ampersand, one or more non-dash characters as the group, a dash): at
each position a match needs all three parts; the matched text is
replaced by the decoded group; otherwise scanning advances one
character.  Structural recursion on a fuel bounded by the input length;
every step consumes at least one character, so the fuel-exhausted
branch is unreachable from `subDecode`. -/
def subDecodeF : Nat → List Char → Except Unit (List Char)
  | 0, _ => .ok []
  | _ + 1, [] => .ok []
  | n + 1, c :: cs =>
    if c = '&' then
      let grp := cs.takeWhile (· ≠ '-')
      if grp.isEmpty then
        match subDecodeF n cs with
        | .ok tl => .ok ('&' :: tl)
        | .error e => .error e
      else if (cs.drop grp.length).head? = some '-' then
        match decodeGroup grp, subDecodeF n (cs.drop grp.length).tail with
        | .ok g, .ok tl => .ok (g ++ tl)
        | .error e, _ => .error e
        | _, .error e => .error e
      else
        match subDecodeF n cs with
        | .ok tl => .ok ('&' :: tl)
        | .error e => .error e
    else
      match subDecodeF n cs with
      | .ok tl => .ok (c :: tl)
      | .error e => .error e

/-- The regex substitution scan of `decode_imap_utf7`. -/
def subDecode (l : List Char) : Except Unit (List Char) :=
  subDecodeF l.length l

/-- Python `s.replace("&-", "&")`: left-to-right non-overlapping. -/
def replAmpDash : List Char → List Char
  | [] => []
  | [c] => [c]
  | c :: d :: rest =>
    if c = '&' ∧ d = '-' then '&' :: replAmpDash rest
    else c :: replAmpDash (d :: rest)

/-- `decode_imap_utf7` (src/migrate.py:160).  The function body has no
exception handler, so a failing base64 or UTF-16 decode propagates; the
`.error` result models that raised exception. -/
def decode_imap_utf7 (s : String) : Except Unit String := do
  let s1 := replAmpDash s.data
  let r ← subDecode s1
  return ⟨r⟩

/-- The per-folder decode step of `list_folders` (src/migrate.py:233-236):
`decode_imap_utf7` wrapped in try/except, falling back to the raw wire
name on any exception. -/
def decode_folder_name (folder : String) : String :=
  match decode_imap_utf7 folder with
  | .ok d => d
  | .error _ => folder

/-- Python `s.replace("&", "&-")` (single-char pattern, two-char
replacement). -/
def expandAmp (l : List Char) : List Char :=
  (l.map (fun c => if c = '&' then ['&', '-'] else [c])).flatten

/-- Membership of the character class of the encode regex: one-or-more
characters in the range U+0080 to U+FFFF.  Scalar values above U+FFFF
are not matched (the upper bound of the class is the literal U+FFFF),
so they pass through unencoded. -/
def isHiChar (c : Char) : Bool :=
  0x80 ≤ c.toNat && c.toNat ≤ 0xFFFF

/-- The body of an encoded group: UTF-16-BE bytes, base64, `/` to `,`,
padding stripped. -/
def encGroupBody (run : List Char) : List Char :=
  rstripCharList '=' ((b64encodeRaw (utf16beBytes run)).map
    (fun c => if c = '/' then ',' else c))

/-- The `encode_match` inner function of `encode_imap_utf7`
(src/migrate.py:173): UTF-16-BE bytes, base64, `/` to `,`, padding
stripped, wrapped in the shift markers. -/
def encGroup (run : List Char) : List Char :=
  '&' :: encGroupBody run ++ ['-']

/-- The encode regex scan: maximal runs of class characters are replaced
by encoded groups, other characters pass through.  Structural recursion
on a fuel bounded by the input length; every step consumes at least one
character, so the fuel-exhausted branch is unreachable from
`encodeRuns`. -/
def encodeRunsF : Nat → List Char → List Char
  | 0, l => l
  | _ + 1, [] => []
  | n + 1, c :: cs =>
    if isHiChar c then
      encGroup (c :: cs.takeWhile isHiChar) ++ encodeRunsF n (cs.dropWhile isHiChar)
    else
      c :: encodeRunsF n cs

/-- The encode regex scan of `encode_imap_utf7`. -/
def encodeRuns (l : List Char) : List Char :=
  encodeRunsF l.length l

/-- `encode_imap_utf7` (src/migrate.py:171): escape the ampersand,
encode the high runs, and quote the result if it still contains a space
or any character above 127. -/
def encode_imap_utf7 (s : String) : String :=
  let encoded := encodeRuns (expandAmp s.data)
  if encoded.contains ' ' || encoded.any (fun c => 127 < c.toNat) then
    ⟨'"' :: encoded ++ ['"']⟩
  else ⟨encoded⟩

/-- `encode_folder` (src/migrate.py:183): encode, then rewrite the `/`
separator to the destination delimiter `.`.  The model of
`encode_imap_utf7` is total, so the except branch (log and return the
raw name) is unreachable here. -/
def encode_folder (name : String) : String :=
  replaceChar '/' '.' (encode_imap_utf7 name)

/-!
## Observable effects

Stateful operations are modelled by the ordered trace of effects they
perform: checkpoint-file writes and deletion, the mutating protocol
commands (folder create, subscribe, append), filesystem writes of the
attachment extractor, and `add_statistic` calls (src/stats.py:7).  The
checkpoint size field carries the raw byte count accumulated by
`migrate_all`, matching what `save_checkpoint` receives during the loop;
the float mebibyte rounding of the final summary is outside the claims
and is not modelled.
-/

inductive Ev where
  | saveCheckpoint (index totalSize skipped : Nat)
  | deleteCheckpoint
  | createFolder (wireName : String)
  | subscribeFolder (wireName : String)
  | appendMsg (wireName : String)
  | mkdir (path : String)
  | writeFile (path : String)
  | stat (category key : String) (amount : Nat)
deriving DecidableEq

/-- A mutating protocol command or filesystem write, the effects claim
C7 asserts are absent in simulation mode. -/
def Ev.isMutating : Ev → Bool
  | .createFolder _ | .subscribeFolder _ | .appendMsg _ | .mkdir _ | .writeFile _ => true
  | _ => false

/-- An `add_statistic` call. -/
def Ev.isStat : Ev → Bool
  | .stat _ _ _ => true
  | _ => false

/-- Indices of the checkpoint writes of a trace, in order. -/
def savedIndices (evs : List Ev) : List Nat :=
  evs.filterMap (fun e => match e with
    | .saveCheckpoint i _ _ => some i
    | _ => none)

/-- Whether a trace contains a checkpoint write with the given index. -/
def savesAtIndex (n : Nat) (evs : List Ev) : Bool :=
  evs.any (fun e => match e with
    | .saveCheckpoint i _ _ => i = n
    | _ => false)

/-- The index of a checkpoint write, `none` for any other event. -/
def toSaveIndex : Ev → Option Nat
  | .saveCheckpoint i _ _ => some i
  | _ => none

/-!
## Checkpoint store, src/migrate.py:54-83
-/

/-- The observable state of the checkpoint file when `load_checkpoint`
runs: missing; present but not parseable as JSON (`json.load` raises
`JSONDecodeError`); or a parsed JSON object with three optional numeric
fields (`dict.get` with default 0). -/
inductive CheckpointFileState where
  | absent
  | invalidJson
  | parsedNonObject
  | parsedObject (last_processed_index total_size_mb skipped : Option Nat)
deriving DecidableEq

/-- `load_checkpoint` (src/migrate.py:54).  Only `JSONDecodeError` is
caught (logged as a warning); a file holding valid JSON that is not an
object makes the `.get` calls raise `AttributeError`, which propagates
(`.error`). -/
def load_checkpoint : CheckpointFileState → Except Unit (Nat × Nat × Nat)
  | .absent => .ok (0, 0, 0)
  | .invalidJson => .ok (0, 0, 0)
  | .parsedNonObject => .error ()
  | .parsedObject lpi tsm sk => .ok (lpi.getD 0, tsm.getD 0, sk.getD 0)

/-!
## Statistics and sender extraction, src/stats.py and src/migrate.py:313
-/

/-- Models the address component of `email.utils.parseaddr` on the
inputs arising here, from CPython behaviour: an input containing an
angle bracket yields the text between the first opening bracket and the
following closing one (empty for an empty angle-addr, as in
`parseaddr("<>") = ("", "")`); a bare string without brackets is
returned as the address itself, whitespace-trimmed
(`parseaddr("Unknown") = ("", "Unknown")`, `parseaddr("") = ("", "")`). -/
def parseaddrAddr (s : String) : String :=
  if s.data.contains '<' then
    ⟨((s.data.dropWhile (· ≠ '<')).drop 1).takeWhile (· ≠ '>')⟩
  else
    ⟨stripWS s.data⟩

/-- `collect_sender_statistic` (src/migrate.py:313), keyed by the
message's From header (`none` when the header is missing, in which case
`msg.get` supplies the default "Unknown").  `message_from_bytes` accepts
arbitrary bytes, so the except branch — whose fallback key is the
misspelled literal "Unkown" — is unreachable in this model; the
`finally` block makes exactly one `add_statistic("sender", ...)` call. -/
def collect_sender_statistic (fromHeader : Option String) : List Ev :=
  [Ev.stat "sender" (parseaddrAddr (fromHeader.getD "Unknown")) 1]

/-!
## Attachment extraction, src/attachments.py
-/

/-- The attachment-extraction configuration (src/attachments.py:17-23):
whitelist of extensions, strict size bounds, storage root, and the md5
hex-digest prefix function used for storage filenames — the digest is
injected as an opaque function since no claim depends on its value and
it does not depend on the simulation flag. -/
structure AttachCfg where
  whitelist : List String
  minSize : Nat
  maxSize : Nat
  storageRoot : String
  hashHex : String → String

/-- A leaf MIME part: its declared filename, if any (`get_filename`,
with the empty string behaving as missing under Python truthiness), and
its decoded payload bytes. -/
structure APart where
  filename : Option String
  payload : List Nat

/-- `normalize_filename` (src/attachments.py:25) on character lists:
drop everything from the first question mark on, then strip
surrounding whitespace. -/
def normalizeFnList (l : List Char) : List Char :=
  stripWS (l.takeWhile (· ≠ '?'))

/-- `normalize_filename` (src/attachments.py:25). -/
def normalize_filename (filename : String) : String :=
  ⟨normalizeFnList filename.data⟩

/-- The extension component of `os.path.splitext` (POSIX): the suffix
of the part after the last slash from its last dot, except that the
leading dots of that part never start an extension. -/
def splitextExt (s : String) : String :=
  let base := (s.data.reverse.takeWhile (· ≠ '/')).reverse
  let rest := base.drop (base.takeWhile (· = '.')).length
  let revTail := rest.reverse.takeWhile (· ≠ '.')
  if revTail.length < rest.length then ⟨'.' :: revTail.reverse⟩ else ""

/-- `get_normalized_extension` (src/attachments.py:35). -/
def get_normalized_extension (filename : String) : String :=
  lowerStr (splitextExt (normalize_filename filename))

/-- `should_extract_attachment` (src/attachments.py:43): the decision
together with the `add_statistic("attachment_types", ...)` call it
makes once the filename check passes.  A missing or empty filename
returns False before the statistic is recorded. -/
def should_extract_attachment (cfg : AttachCfg) (part : APart) : List Ev × Bool :=
  match part.filename with
  | none => ([], false)
  | some fn =>
    if fn = "" then ([], false)
    else
      let file_ext := get_normalized_extension (normalize_filename fn)
      let file_size := part.payload.length
      ([Ev.stat "attachment_types" file_ext 1],
        decide (file_ext ∈ cfg.whitelist) && decide (file_size < cfg.maxSize)
          && decide (cfg.minSize < file_size))

/-- `make_filename_safe` (src/attachments.py:59): drop a leading
file-scheme prefix, replace the characters the regex class lists with
underscores, and strip whitespace. -/
def make_filename_safe (filename : String) : String :=
  let cleaned := replaceSub "file://".data [] filename.data
  ⟨stripWS (cleaned.map (fun c =>
    if c ∈ ['<', '>', ':', '"', '/', '\\', '|', '?', '*'] then '_' else c))⟩

/-- `os.path.join` for two components (POSIX, second component
relative). -/
def pathJoin (a b : String) : String :=
  if a.endsWith "/" then a ++ b else a ++ "/" ++ b

/-- `save_attachment` (src/attachments.py:78): its effect trace and
returned file URI.  `month_folder` is the strftime rendering of the
parsed message date, injected since the date computation does not
depend on the simulation flag (its current-time fallback is wall-clock
dependent and outside every claim).  Directory creation and the payload
write are guarded by the simulation flag; the statistics count and the
returned URI are not.  The URI is modelled as the file scheme prefix on
the storage path (`pathlib.Path.as_uri` of an absolute path without
characters needing percent-encoding). -/
def save_attachment (cfg : AttachCfg) (part : APart) (monthFolder : String)
    (simulation : Bool) : List Ev × Option String :=
  match part.filename with
  | none => ([], none)
  | some fn0 =>
    if fn0 = "" then ([], none)
    else
      let filename := make_filename_safe fn0
      let storageDir := pathJoin cfg.storageRoot monthFolder
      let storagePath := pathJoin storageDir (cfg.hashHex filename ++ "_" ++ filename)
      ((if simulation then [] else [Ev.mkdir storageDir])
        ++ (if simulation then [] else [Ev.writeFile storagePath])
        ++ [Ev.stat "attachments" "extracted" 1],
       some ("file://" ++ storagePath))

/-- The effect trace of `extract_and_replace_attachments`
(src/attachments.py:138) on one leaf part of the walk: parts with a
truthy filename are attachments — selected ones are saved, the others
kept; parts without one are body candidates with no effects.  The
rebuilt message bytes carry no effects and no claim mentions them, so
only the trace is modelled. -/
def extractPartEvents (cfg : AttachCfg) (monthFolder : String) (simulation : Bool)
    (part : APart) : List Ev :=
  match part.filename with
  | none => []
  | some fn =>
    if fn = "" then []
    else
      (should_extract_attachment cfg part).1 ++
        (if (should_extract_attachment cfg part).2 then
          (save_attachment cfg part monthFolder simulation).1
        else [])

/-- The effect trace of `extract_and_replace_attachments` over a
message: the no-op fast path for non-multipart messages, else the walk
over the leaf parts in order. -/
def extract_and_replace_attachments (cfg : AttachCfg) (multipart : Bool)
    (parts : List APart) (monthFolder : String) (simulation : Bool) : List Ev :=
  if multipart then
    (parts.map (extractPartEvents cfg monthFolder simulation)).flatten
  else []

/-!
## Folder preparation, src/migrate.py:240-258 and 493-548
-/

/-- `create_folder_if_not_exists` (src/migrate.py:240): nothing for the
inbox; in simulation the create is logged only; live, a create command
and — when the server accepts it (`createOk`) — a subscribe command.
A rejected create only logs (ALREADYEXISTS or error), with no further
command. -/
def create_folder_if_not_exists (folder_name : String) (simulation : Bool)
    (createOk : Bool) : List Ev :=
  if upperStr folder_name = "INBOX" then []
  else if simulation then []
  else
    Ev.createFolder (encode_folder folder_name) ::
      (if createOk then [Ev.subscribeFolder (encode_folder folder_name)] else [])

/-- One entry of `get_folder_mapping_info` (src/migrate.py:493): the
destination computed by the consolidated mapping function, skipped when
it is null, with the missing flag (the inbox is assumed to exist). -/
def folderMappingEntry (cfg : MapCfg) (destFolders : List String) (src : String) :
    Option (String × String × Bool) :=
  match map_labels_to_destination cfg (.list [src]) with
  | none => none
  | some dest =>
    some (src, dest, decide (upperStr dest ≠ "INBOX") && decide (dest ∉ destFolders))

/-- `get_folder_mapping_info` (src/migrate.py:493): the statistics trace
(one source_folders count per source folder) and the mapping report.
The function takes no simulation flag. -/
def get_folder_mapping_info (cfg : MapCfg) (sourceFolders destFolders : List String) :
    List Ev × List (String × String × Bool) :=
  (sourceFolders.map (fun src => Ev.stat "source_folders" src 1),
   sourceFolders.filterMap (folderMappingEntry cfg destFolders))

/-- `prepare` (src/migrate.py:539): compute and print the mapping
report, then create each missing destination folder; `createOk` injects
the server's per-folder create response. -/
def prepare (cfg : MapCfg) (sourceFolders destFolders : List String)
    (createOk : String → Bool) (simulation : Bool) :
    List Ev × List (String × String × Bool) :=
  let (statEvs, mappingInfo) := get_folder_mapping_info cfg sourceFolders destFolders
  (statEvs ++ (mappingInfo.map (fun e =>
    if e.2.2 then create_folder_if_not_exists e.2.1 simulation (createOk e.2.1) else [])).flatten,
   mappingInfo)

/-!
## The migration loop, src/migrate.py:332-473

One `Msg` describes how the iteration for one source message unfolds:
whether the fetch succeeds, whether a raw body is present, the From
header, labels, reported size, the MIME shape for attachment
extraction, and whether a live append is accepted.  A run can be cut
short by a `halt`: a message index at which, at the top of the loop, a
keyboard interrupt or an unexpected exception occurs.  (The mid-run
IMAP-abort reconnect path retries the same index and writes no
checkpoint, so it is invisible to the traces the claims are about, as
are the progress bar, the rate-limit sleep and the periodic reconnect.)
-/

inductive HaltKind where
  | interrupt
  | exn
deriving DecidableEq

structure Msg where
  fetchOk : Bool
  hasRaw : Bool
  fromHeader : Option String
  labels : List String
  size : Nat
  multipart : Bool
  parts : List APart
  monthFolder : String
  appendOk : Bool

/-- The migration-wide configuration: the mapping configuration, the
`EXTRACT_ATTACHMENTS` switch and the attachment configuration. -/
structure RunCfg where
  mapCfg : MapCfg
  extractAttachments : Bool
  acfg : AttachCfg

/-- The body of one loop iteration of `migrate_all`
(src/migrate.py:364-447) up to the checkpoint check: its effect trace,
whether it ends in an early continue (a failed fetch or a null
destination — these bypass the periodic checkpoint), and the increments
to the cumulative size and the skip counter. -/
def stepMsg (rc : RunCfg) (simulation : Bool) (m : Msg) : List Ev × Bool × Nat × Nat :=
  if ¬m.fetchOk then
    ([], true, 0, 1)
  else if m.hasRaw then
    let evs := collect_sender_statistic m.fromHeader
      ++ (if rc.extractAttachments then
            extract_and_replace_attachments rc.acfg m.multipart m.parts m.monthFolder simulation
          else [])
    match map_labels_to_destination rc.mapCfg (.list m.labels) with
    | none => (evs, true, m.size, 1)
    | some dest =>
      (evs ++ (if simulation then [] else [Ev.appendMsg (encode_folder dest)]),
       false, m.size, if ¬simulation ∧ ¬m.appendOk then 1 else 0)
  else
    ([], false, m.size, 1)

/-- Whether the injected halt fires at this index. -/
def haltsAt (halt : Option (Nat × HaltKind)) (idx : Nat) : Bool :=
  match halt with
  | some (k, _) => k = idx
  | none => false

/-- The while loop of `migrate_all` over the remaining messages:
returns the effect trace, the final index / cumulative size / skip
count, and whether the loop ran to completion (False when the halt
fired).  On the non-continue path, a checkpoint is written when the
current index is divisible by 100, after this iteration's counter
updates and before the index advances. -/
def migrateLoop (rc : RunCfg) (simulation : Bool) (halt : Option (Nat × HaltKind)) :
    List Msg → Nat → Nat → Nat → List Ev × Nat × Nat × Nat × Bool
  | [], idx, total, skip => ([], idx, total, skip, true)
  | m :: rest, idx, total, skip =>
    if haltsAt halt idx then ([], idx, total, skip, false)
    else
      let st := stepMsg rc simulation m
      let total2 := total + st.2.2.1
      let skip2 := skip + st.2.2.2
      let ckpt := if st.2.1 then []
        else if idx % 100 = 0 then [Ev.saveCheckpoint idx total2 skip2] else []
      let r := migrateLoop rc simulation halt rest (idx + 1) total2 skip2
      (st.1 ++ ckpt ++ r.1, r.2)

/-- The except-branch checkpoint write of `migrate_all`
(src/migrate.py:461-464): present only when an unexpected exception
halted the loop. -/
def exnSaveEvents (halt : Option (Nat × HaltKind)) (done : Bool) (i a b : Nat) : List Ev :=
  match halt with
  | some (_, .exn) => if done then [] else [Ev.saveCheckpoint i a b]
  | _ => []

/-- `migrate_all` (src/migrate.py:332) from a resume state
(`start`, `total0`, `skip0`, as produced by `load_checkpoint`): the loop
trace; on an unexpected exception, the except-branch checkpoint write;
the finally-block checkpoint write on every path; and, only after an
uninterrupted pass, the checkpoint deletion.  (The finally block also
rewrites the statistics file; file-level statistics persistence is
outside the event model.) -/
def migrate_all (rc : RunCfg) (simulation : Bool) (msgs : List Msg)
    (halt : Option (Nat × HaltKind)) (start total0 skip0 : Nat) :
    List Ev × Nat × Nat × Nat × Bool :=
  let r := migrateLoop rc simulation halt (msgs.drop start) start total0 skip0
  (r.1 ++ exnSaveEvents halt r.2.2.2.2 r.2.1 r.2.2.1 r.2.2.2.1
     ++ [Ev.saveCheckpoint r.2.1 r.2.2.1 r.2.2.2.1]
     ++ (if r.2.2.2.2 then [Ev.deleteCheckpoint] else []),
   r.2)

/-!
## Concrete runs used by the checkpoint-lifecycle analysis
-/

/-- A message whose iteration completes normally: fetch succeeds, a raw
body is present, the empty label list maps to the archive folder, the
append is accepted. -/
def okMsgC1 : Msg :=
  { fetchOk := true, hasRaw := true, fromHeader := some "a@b.c", labels := [],
    size := 0, multipart := false, parts := [], monthFolder := "", appendOk := true }

/-- A message whose fetch fails: the iteration takes the early-continue
path that bypasses the periodic checkpoint check. -/
def failMsgC1 : Msg :=
  { fetchOk := false, hasRaw := true, fromHeader := some "a@b.c", labels := [],
    size := 0, multipart := false, parts := [], monthFolder := "", appendOk := true }

/-- A migration configuration with an empty mapping table and disabled
attachment extraction. -/
def rcC1 : RunCfg :=
  { mapCfg := { folder_mapping := [], archive := "Archive", pfx := "INBOX." },
    extractAttachments := false,
    acfg := { whitelist := [], minSize := 0, maxSize := 0, storageRoot := "",
              hashHex := fun _ => "" } }

/-- A 201-message mailbox whose messages at indices 100 and 200 fail to
fetch. -/
def msgsC1 : List Msg :=
  ((List.replicate 201 okMsgC1).set 100 failMsgC1).set 200 failMsgC1

/-!
## Theorems
-/

/-- C10: `map_labels_to_destination` accepts a bare string in place of a
label list: for every string s, applying it to s equals applying it to
the one-element list holding s. -/
theorem C10_string_arg_eq_singleton_list (cfg : MapCfg) (s : String) :
    map_labels_to_destination cfg (.str s) = map_labels_to_destination cfg (.list [s]) :=
  rfl

/-- C9: when the checkpoint file exists but holds invalid JSON,
`load_checkpoint` returns the same result as when no checkpoint file
exists at all, namely (0, 0, 0), instead of raising. -/
theorem C9_corrupt_checkpoint_restarts_from_zero :
    load_checkpoint .invalidJson = load_checkpoint .absent ∧
    load_checkpoint .invalidJson = .ok (0, 0, 0) :=
  ⟨rfl, rfl⟩

/-- C8 counterexample: a present but malformed From header whose
address component is empty — CPython's parseaddr returns an empty
address for it — is recorded under the empty string, not under the
placeholder "Unknown" the claim states. -/
theorem C8_counterexample_empty_from_header :
    collect_sender_statistic (some "") = [Ev.stat "sender" "" 1] ∧
    ("" : String) ≠ "Unknown" := by
  exact ⟨rfl, by decide⟩

/-- C8 amended: `collect_sender_statistic` never raises and always
records exactly one statistic in the "sender" category; a missing From
header is recorded under "Unknown" (the default supplied to `msg.get`
passes through parseaddr unchanged), but a present malformed header is
recorded under whatever address parseaddr extracts — possibly the empty
string — rather than under "Unknown". -/
theorem C8_sender_statistic_amended (fromHeader : Option String) :
    (collect_sender_statistic fromHeader).length = 1 ∧
    (∀ e ∈ collect_sender_statistic fromHeader, ∃ k n, e = Ev.stat "sender" k n) ∧
    (fromHeader = none → collect_sender_statistic fromHeader = [Ev.stat "sender" "Unknown" 1]) := by
  refine ⟨rfl, ?_, ?_⟩
  · intro e he
    simp only [collect_sender_statistic, List.mem_singleton] at he
    exact ⟨_, _, he⟩
  · intro h
    subst h
    rfl

/-- C8 witness: with no From header, exactly the statistic
("sender", "Unknown", 1) is recorded. -/
theorem C8_witness :
    collect_sender_statistic none = [Ev.stat "sender" "Unknown" 1] :=
  (C8_sender_statistic_amended none).2.2 rfl

/-- C4 counterexample: `decode_imap_utf7` is not total — on the
malformed wire name "&YQ-" the base64 group decodes to a single byte,
whose UTF-16-BE decode raises (odd byte count), and the function has no
exception handler, so the exception propagates. -/
theorem C4_counterexample_decode_raises :
    decode_imap_utf7 "&YQ-" = .error () :=
  rfl

/-- C4 amended: totality and best-effort passthrough are provided not
by `decode_imap_utf7` itself but at its call site in `list_folders`,
which wraps it in try/except: whenever the decode raises, the raw wire
name is returned unchanged, and whenever it succeeds its result is
returned. -/
theorem C4_decode_total_at_call_site (s : String) :
    (∀ e, decode_imap_utf7 s = .error e → decode_folder_name s = s) ∧
    (∀ r, decode_imap_utf7 s = .ok r → decode_folder_name s = r) := by
  constructor
  · intro e h
    simp [decode_folder_name, h]
  · intro r h
    simp [decode_folder_name, h]

/-- C4 witness: on the malformed input "&YQ-" the decode raises and the
call-site wrapper passes the wire name through unchanged. -/
theorem C4_witness : decode_folder_name "&YQ-" = "&YQ-" :=
  (C4_decode_total_at_call_site "&YQ-").1 () rfl

/-- Dropping a satisfying prefix is idempotent. -/
theorem dropWhile_dropWhile {α} (p : α → Bool) (l : List α) :
    (l.dropWhile p).dropWhile p = l.dropWhile p := by
  induction l with
  | nil => simp
  | cons c cs ih =>
    by_cases h : p c
    · simp [List.dropWhile_cons, h, ih]
    · simp [List.dropWhile_cons, h]

/-- A prefix of a list with nothing left to drop has nothing to drop. -/
theorem dropWhile_eq_self_of_prefix {α} (p : α → Bool) {a b : List α}
    (ha : a.dropWhile p = a) (hb : b <+: a) : b.dropWhile p = b := by
  cases b with
  | nil => simp
  | cons x xs =>
    obtain ⟨t, ht⟩ := hb
    by_cases hx : p x
    · exfalso
      rw [← ht] at ha
      simp only [List.cons_append, List.dropWhile_cons, hx, if_true] at ha
      have hlen := congrArg List.length ha
      have hle := (List.dropWhile_sublist (p := p) (l := xs ++ t)).length_le
      simp only [List.length_cons, List.length_append] at hlen hle
      omega
    · simp [List.dropWhile_cons, hx]

/-- The two-sided strip leaves no leading whitespace. -/
theorem stripWS_dropWhile (l : List Char) :
    (stripWS l).dropWhile Char.isWhitespace = stripWS l := by
  have hA := dropWhile_dropWhile Char.isWhitespace l
  have hsuff := List.dropWhile_suffix (l := (l.dropWhile Char.isWhitespace).reverse)
    (p := Char.isWhitespace)
  have hpre : ((l.dropWhile Char.isWhitespace).reverse.dropWhile Char.isWhitespace).reverse
      <+: l.dropWhile Char.isWhitespace := by
    have h2 := List.reverse_prefix.mpr hsuff
    simpa using h2
  exact dropWhile_eq_self_of_prefix _ hA hpre

/-- `str.strip` is idempotent. -/
theorem stripWS_idem (l : List Char) : stripWS (stripWS l) = stripWS l := by
  show (((stripWS l).dropWhile Char.isWhitespace).reverse.dropWhile Char.isWhitespace).reverse
    = stripWS l
  rw [stripWS_dropWhile]
  show ((((l.dropWhile Char.isWhitespace).reverse.dropWhile
    Char.isWhitespace).reverse).reverse.dropWhile Char.isWhitespace).reverse = stripWS l
  rw [List.reverse_reverse, dropWhile_dropWhile]
  rfl

/-- Stripping only removes characters. -/
theorem stripWS_subset (l : List Char) : ∀ c ∈ stripWS l, c ∈ l := by
  intro c hc
  simp only [stripWS, List.mem_reverse] at hc
  have h1 := (List.dropWhile_suffix (p := Char.isWhitespace)
    (l := (l.dropWhile Char.isWhitespace).reverse)).subset hc
  simp only [List.mem_reverse] at h1
  exact (List.dropWhile_suffix (p := Char.isWhitespace) (l := l)).subset h1

/-- The list-level filename normalization is idempotent: its result
contains no question mark and no surrounding whitespace. -/
theorem normalizeFnList_idem (l : List Char) :
    normalizeFnList (normalizeFnList l) = normalizeFnList l := by
  simp only [normalizeFnList]
  have hq : (stripWS (l.takeWhile (fun x => decide (x ≠ '?')))).takeWhile
        (fun x => decide (x ≠ '?'))
      = stripWS (l.takeWhile (fun x => decide (x ≠ '?'))) := by
    apply List.takeWhile_eq_self_iff.mpr
    intro a ha
    have h2 : a ∈ l.takeWhile (fun x => decide (x ≠ '?')) := stripWS_subset _ a ha
    exact List.mem_takeWhile_imp (p := fun x => decide (x ≠ '?')) h2
  rw [hq, stripWS_idem]

/-- `normalize_filename` is idempotent. -/
theorem normalize_filename_idem (f : String) :
    normalize_filename (normalize_filename f) = normalize_filename f := by
  simp only [normalize_filename]
  exact congrArg String.mk (normalizeFnList_idem f.data)

/-- The extension computed by the source (which normalizes the filename
once more inside `get_normalized_extension`) is the extension of the
singly-normalized name. -/
theorem get_normalized_extension_normalize (f : String) :
    get_normalized_extension (normalize_filename f) = get_normalized_extension f := by
  simp only [get_normalized_extension, normalize_filename_idem]

/-- C6: for an attachment part declaring a (truthy) filename,
`should_extract_attachment` returns true iff the lower-cased extension
obtained after stripping the question-mark suffix is whitelisted AND
the payload byte length is strictly between the configured bounds; a
payload of exactly the minimum size is excluded, one byte more is
included (with whitelisted extension and below the maximum), and a
payload of exactly the maximum size is excluded. -/
theorem C6_attachment_selection (cfg : AttachCfg) (part : APart) (fn : String)
    (hfn : part.filename = some fn) (hne : fn ≠ "") :
    ((should_extract_attachment cfg part).2 = true ↔
      (get_normalized_extension fn ∈ cfg.whitelist ∧
        cfg.minSize < part.payload.length ∧ part.payload.length < cfg.maxSize)) ∧
    (part.payload.length = cfg.minSize → (should_extract_attachment cfg part).2 = false) ∧
    (part.payload.length = cfg.maxSize → (should_extract_attachment cfg part).2 = false) ∧
    (cfg.minSize + 1 < cfg.maxSize → part.payload.length = cfg.minSize + 1 →
      get_normalized_extension fn ∈ cfg.whitelist →
      (should_extract_attachment cfg part).2 = true) := by
  have hiff : (should_extract_attachment cfg part).2 = true ↔
      (get_normalized_extension fn ∈ cfg.whitelist ∧
        cfg.minSize < part.payload.length ∧ part.payload.length < cfg.maxSize) := by
    simp only [should_extract_attachment, hfn, if_neg hne, get_normalized_extension_normalize,
      Bool.and_eq_true, decide_eq_true_eq]
    constructor
    · rintro ⟨⟨h1, h2⟩, h3⟩
      exact ⟨h1, h3, h2⟩
    · rintro ⟨h1, h2, h3⟩
      exact ⟨⟨h1, h3⟩, h2⟩
  refine ⟨hiff, ?_, ?_, ?_⟩
  · intro hmin
    rw [Bool.eq_false_iff]
    intro htrue
    have := (hiff.mp htrue).2.1
    omega
  · intro hmax
    rw [Bool.eq_false_iff]
    intro htrue
    have := (hiff.mp htrue).2.2
    omega
  · intro hlt hsz hwl
    exact hiff.mpr ⟨hwl, by omega, by omega⟩

/-- C6 witness: with whitelist [".pdf"] and bounds 10 and 20, the part
"report.pdf?=" with an 11-byte payload (minimum + 1) is selected. -/
theorem C6_witness :
    (should_extract_attachment
      ⟨[".pdf"], 10, 20, "/store", fun _ => "00000000"⟩
      ⟨some "report.pdf?=", List.replicate 11 0⟩).2 = true :=
  (C6_attachment_selection _ _ "report.pdf?=" rfl (by decide)).2.2.2
    (by decide) (by decide) (by decide)

/-- When no label triggers the system-root drop or the inbox rule,
`map_labels_list` reduces to the mapping-table loop with the
depth-based fallback. -/
theorem map_labels_list_rules_234 (cfg : MapCfg) (labels : List String)
    (hg : "[Gmail]" ∉ labels)
    (hi : ∀ l ∈ labels, upperStr (clean_gmail_label l) ≠ "INBOX") :
    map_labels_list cfg labels =
      (match mappingLoop cfg.folder_mapping (labels.map clean_gmail_label) with
       | some v => v
       | none =>
         match labels.map clean_gmail_label with
         | [] => some cfg.archive
         | c :: cs =>
           some (replaceChar '/' '.' (cfg.pfx ++ (sortDescByDepth (c :: cs)).headD ""))) := by
  have hni : ¬("[Gmail]/Inbox" ∈ labels
      ∨ labels.any (fun lbl => upperStr (clean_gmail_label lbl) = "INBOX") = true) := by
    rintro (hmem | hany)
    · exact hi _ hmem (by decide)
    · rw [List.any_eq_true] at hany
      obtain ⟨l, hl, hd⟩ := hany
      simp only [decide_eq_true_eq] at hd
      exact hi l hl hd
  simp only [map_labels_list, if_neg hg, if_neg hni]

/-- The mapping loop misses when every label misses. -/
theorem mappingLoop_eq_none (table : List (String × Option String)) (ls : List String)
    (h : ∀ l ∈ ls, table.lookup l = none) : mappingLoop table ls = none := by
  induction ls with
  | nil => rfl
  | cons l ls ih =>
    simp only [mappingLoop, h l (by simp)]
    exact ih (fun x hx => h x (by simp [hx]))

/-- C2 counterexample: with the mapping table sending "A" to null and
"B" to "X", the list ["A", "B"] satisfies the claim's premises (no
system-root marker, nothing cleans to INBOX, and "B" is a non-null
table hit, so the first non-null hit is "X"), yet
`map_labels_to_destination` returns the null of the earlier hit "A" —
a null table entry does terminate the lookup. -/
theorem C2_counterexample_null_entry_terminates :
    ("[Gmail]" ∉ ["A", "B"]) ∧
    upperStr (clean_gmail_label "A") ≠ "INBOX" ∧
    upperStr (clean_gmail_label "B") ≠ "INBOX" ∧
    firstNonNullHit [("A", none), ("B", some "X")]
      (["A", "B"].map clean_gmail_label) = some "X" ∧
    map_labels_to_destination ⟨[("A", none), ("B", some "X")], "Archive", "INBOX."⟩
      (.list ["A", "B"]) = none := by
  decide

/-- C2 amended: under the claim's premises, `map_labels_to_destination`
returns the table entry of the first cleaned label present in the
Folder Mapping Table in input order — whether that entry is null
(dropping the message) or not; a null entry terminates the lookup
rather than being skipped. -/
theorem C2_first_table_hit_amended (cfg : MapCfg) (labels : List String) (v : Option String)
    (hg : "[Gmail]" ∉ labels)
    (hi : ∀ l ∈ labels, upperStr (clean_gmail_label l) ≠ "INBOX")
    (hhit : mappingLoop cfg.folder_mapping (labels.map clean_gmail_label) = some v) :
    map_labels_to_destination cfg (.list labels) = v := by
  show map_labels_list cfg labels = v
  rw [map_labels_list_rules_234 cfg labels hg hi, hhit]

/-- C2 witness: with table entries "A" to "Y" and "B" to "X", the
labels ["Z", "A", "B"] miss on "Z" and hit first on "A", yielding "Y". -/
theorem C2_witness :
    map_labels_to_destination ⟨[("A", some "Y"), ("B", some "X")], "Archive", "INBOX."⟩
      (.list ["Z", "A", "B"]) = some "Y" :=
  C2_first_table_hit_amended _ _ _ (by decide) (by decide) (by decide)

/-- The stable descending insertion relates `firstDeepest` across one
step: the leftmost-deepest of c followed by ys is c exactly when no
element of ys is strictly deeper. -/
theorem firstDeepest_step (ys : List String) : ∀ c y : String,
    firstDeepest (if labelDepth c < labelDepth y then y else c) ys =
      if labelDepth (firstDeepest y ys) ≤ labelDepth c then c else firstDeepest y ys := by
  induction ys with
  | nil =>
    intro c y
    simp only [firstDeepest]
    split_ifs <;> first | rfl | omega
  | cons z zs ih =>
    intro c y
    simp only [firstDeepest]
    rw [show (if labelDepth (if labelDepth c < labelDepth y then y else c) < labelDepth z
          then z else if labelDepth c < labelDepth y then y else c)
        = (if labelDepth c < labelDepth (if labelDepth y < labelDepth z then z else y)
          then (if labelDepth y < labelDepth z then z else y) else c) from by
      split_ifs <;> first | rfl | omega]
    exact ih c (if labelDepth y < labelDepth z then z else y)

/-- Stable descending insertion produces a nonempty list. -/
theorem insertDescByDepth_length (x : String) (l : List String) :
    (insertDescByDepth x l).length = l.length + 1 := by
  induction l with
  | nil => rfl
  | cons y ys ih =>
    simp only [insertDescByDepth]
    split_ifs <;> simp [ih]

/-- The head of the stable descending-by-depth sort is the first
occurrence of the maximal-depth element. -/
theorem sortDescByDepth_headD (d : String) (cs : List String) : ∀ c : String,
    (sortDescByDepth (c :: cs)).headD d = firstDeepest c cs := by
  induction cs with
  | nil => intro c; rfl
  | cons y ys ih =>
    intro c
    show (insertDescByDepth c (sortDescByDepth (y :: ys))).headD d = _
    cases hS : sortDescByDepth (y :: ys) with
    | nil =>
      exfalso
      have := congrArg List.length hS
      simp only [sortDescByDepth, insertDescByDepth_length] at this
      simp at this
    | cons h t =>
      have hh : h = firstDeepest y ys := by
        have h2 := ih y
        rw [hS] at h2
        simpa using h2
      have hr : firstDeepest c (y :: ys)
          = if labelDepth h ≤ labelDepth c then c else h := by
        show firstDeepest (if labelDepth c < labelDepth y then y else c) ys = _
        rw [firstDeepest_step ys c y, hh]
      rw [hr]
      simp only [insertDescByDepth]
      by_cases hcmp : labelDepth h ≤ labelDepth c
      · simp [hcmp]
      · simp [hcmp]

/-- C3: for a non-empty label list none of whose cleaned labels is in
the Folder Mapping Table (and which triggers neither the system-root
drop nor the INBOX rule), `map_labels_to_destination` prepends the
configured folder prefix to the cleaned label with the most separator
characters — ties broken by first occurrence — and rewrites every
separator to a dot. -/
theorem C3_deepest_label_on_table_miss (cfg : MapCfg) (l0 : String) (rest : List String)
    (hg : "[Gmail]" ∉ l0 :: rest)
    (hi : ∀ l ∈ l0 :: rest, upperStr (clean_gmail_label l) ≠ "INBOX")
    (hmiss : ∀ l ∈ l0 :: rest, cfg.folder_mapping.lookup (clean_gmail_label l) = none) :
    map_labels_to_destination cfg (.list (l0 :: rest)) =
      some (replaceChar '/' '.'
        (cfg.pfx ++ firstDeepest (clean_gmail_label l0) (rest.map clean_gmail_label))) := by
  show map_labels_list cfg (l0 :: rest) = _
  rw [map_labels_list_rules_234 cfg (l0 :: rest) hg hi]
  rw [mappingLoop_eq_none cfg.folder_mapping ((l0 :: rest).map clean_gmail_label) (by
    intro x hx
    simp only [List.mem_map] at hx
    obtain ⟨l, hl, rfl⟩ := hx
    exact hmiss l hl)]
  show some (replaceChar '/' '.' (cfg.pfx ++ (sortDescByDepth
    (clean_gmail_label l0 :: rest.map clean_gmail_label)).headD "")) = _
  rw [sortDescByDepth_headD "" (rest.map clean_gmail_label) (clean_gmail_label l0)]

/-- C3 witness: with an empty table, ["Work/Projects/Alpha", "Work"]
resolves to the deepest label with the prefix applied and separators
rewritten. -/
theorem C3_witness :
    map_labels_to_destination ⟨[], "Archive", "INBOX."⟩
      (.list ["Work/Projects/Alpha", "Work"]) = some "INBOX.Work.Projects.Alpha" :=
  (C3_deepest_label_on_table_miss ⟨[], "Archive", "INBOX."⟩ "Work/Projects/Alpha" ["Work"]
    (by decide) (by decide) (by decide)).trans (by decide)

/-- In simulation mode `save_attachment` performs no filesystem write,
while its statistics trace and returned URI match the live run. -/
theorem save_attachment_simulation (cfg : AttachCfg) (part : APart) (mf : String) :
    ((save_attachment cfg part mf true).1.filter Ev.isMutating = []) ∧
    ((save_attachment cfg part mf true).1.filter Ev.isStat
      = (save_attachment cfg part mf false).1.filter Ev.isStat) ∧
    ((save_attachment cfg part mf true).2 = (save_attachment cfg part mf false).2) := by
  cases hf : part.filename with
  | none => simp [save_attachment, hf]
  | some fn =>
    by_cases h0 : fn = ""
    · simp [save_attachment, hf, h0]
    · simp [save_attachment, hf, h0, Ev.isMutating, Ev.isStat]

/-- The decision hand of `should_extract_attachment` emits no mutating
effect (its only effect is the attachment_types statistic). -/
theorem should_extract_events_no_mut (cfg : AttachCfg) (part : APart) :
    (should_extract_attachment cfg part).1.filter Ev.isMutating = [] := by
  cases hf : part.filename with
  | none => simp [should_extract_attachment, hf]
  | some fn =>
    by_cases h0 : fn = ""
    · simp [should_extract_attachment, hf, h0]
    · simp [should_extract_attachment, hf, h0, Ev.isMutating]

/-- Per-part extraction in simulation mode: no mutating effect, same
statistics as live. -/
theorem extractPartEvents_simulation (cfg : AttachCfg) (mf : String) (part : APart) :
    ((extractPartEvents cfg mf true part).filter Ev.isMutating = []) ∧
    ((extractPartEvents cfg mf true part).filter Ev.isStat
      = (extractPartEvents cfg mf false part).filter Ev.isStat) := by
  cases hf : part.filename with
  | none => simp [extractPartEvents, hf]
  | some fn =>
    by_cases h0 : fn = ""
    · simp [extractPartEvents, hf, h0]
    · cases hdec : (should_extract_attachment cfg part).2
      · refine ⟨?_, ?_⟩ <;>
          simp [extractPartEvents, hf, h0, hdec, List.filter_append,
            should_extract_events_no_mut cfg part]
      · refine ⟨?_, ?_⟩ <;>
          simp [extractPartEvents, hf, h0, hdec, List.filter_append,
            should_extract_events_no_mut cfg part,
            (save_attachment_simulation cfg part mf).1,
            (save_attachment_simulation cfg part mf).2.1]

/-- Whole-message extraction in simulation mode: no mutating effect,
same statistics as live. -/
theorem extract_events_simulation (cfg : AttachCfg) (mp : Bool) (parts : List APart)
    (mf : String) :
    ((extract_and_replace_attachments cfg mp parts mf true).filter Ev.isMutating = []) ∧
    ((extract_and_replace_attachments cfg mp parts mf true).filter Ev.isStat
      = (extract_and_replace_attachments cfg mp parts mf false).filter Ev.isStat) := by
  cases mp with
  | false => simp [extract_and_replace_attachments]
  | true =>
    simp only [extract_and_replace_attachments, if_true]
    induction parts with
    | nil => simp
    | cons p ps ih =>
      simp only [List.map_cons, List.flatten_cons, List.filter_append]
      refine ⟨?_, ?_⟩
      · rw [(extractPartEvents_simulation cfg mf p).1, ih.1]
        rfl
      · rw [(extractPartEvents_simulation cfg mf p).2, ih.2]

/-- The sender statistic is not a mutating effect. -/
theorem collect_sender_no_mut (fh : Option String) :
    (collect_sender_statistic fh).filter Ev.isMutating = [] := by
  simp [collect_sender_statistic, Ev.isMutating]

/-- The conditional extraction trace of one message carries no mutating
effect in simulation mode. -/
theorem extrIf_no_mut (rc : RunCfg) (m : Msg) :
    ((if rc.extractAttachments then
        extract_and_replace_attachments rc.acfg m.multipart m.parts m.monthFolder true
      else []).filter Ev.isMutating) = [] := by
  cases hea : rc.extractAttachments
  · rfl
  · simpa using (extract_events_simulation rc.acfg m.multipart m.parts m.monthFolder).1

/-- The conditional extraction trace's statistics do not depend on the
simulation flag. -/
theorem extrIf_stat_eq (rc : RunCfg) (m : Msg) :
    ((if rc.extractAttachments then
        extract_and_replace_attachments rc.acfg m.multipart m.parts m.monthFolder true
      else []).filter Ev.isStat)
    = ((if rc.extractAttachments then
        extract_and_replace_attachments rc.acfg m.multipart m.parts m.monthFolder false
      else []).filter Ev.isStat) := by
  cases hea : rc.extractAttachments
  · rfl
  · simpa using (extract_events_simulation rc.acfg m.multipart m.parts m.monthFolder).2

/-- The value of `stepMsg` on a fetched raw message whose destination
resolves. -/
theorem stepMsg_eq_of_dest (rc : RunCfg) (simulation : Bool) (m : Msg) (dest : String)
    (hf : m.fetchOk = true) (hr : m.hasRaw = true)
    (hdest : map_labels_to_destination rc.mapCfg (.list m.labels) = some dest) :
    stepMsg rc simulation m = (collect_sender_statistic m.fromHeader
      ++ (if rc.extractAttachments then
            extract_and_replace_attachments rc.acfg m.multipart m.parts m.monthFolder simulation
          else [])
      ++ (if simulation then [] else [Ev.appendMsg (encode_folder dest)]),
      false, m.size, if ¬simulation ∧ ¬m.appendOk then 1 else 0) := by
  simp [stepMsg, hf, hr, hdest, List.append_assoc]

/-- The value of `stepMsg` on a fetched raw message whose destination
is null. -/
theorem stepMsg_eq_of_drop (rc : RunCfg) (simulation : Bool) (m : Msg)
    (hf : m.fetchOk = true) (hr : m.hasRaw = true)
    (hdest : map_labels_to_destination rc.mapCfg (.list m.labels) = none) :
    stepMsg rc simulation m = (collect_sender_statistic m.fromHeader
      ++ (if rc.extractAttachments then
            extract_and_replace_attachments rc.acfg m.multipart m.parts m.monthFolder simulation
          else []),
      true, m.size, 1) := by
  simp [stepMsg, hf, hr, hdest]

/-- One loop iteration in simulation mode: no mutating effect, the
same statistics as live, and the same continue flag and size increment
(only the skip increment can differ, when a live append fails). -/
theorem stepMsg_simulation (rc : RunCfg) (m : Msg) :
    ((stepMsg rc true m).1.filter Ev.isMutating = []) ∧
    ((stepMsg rc true m).1.filter Ev.isStat = (stepMsg rc false m).1.filter Ev.isStat) ∧
    ((stepMsg rc true m).2.1 = (stepMsg rc false m).2.1) ∧
    ((stepMsg rc true m).2.2.1 = (stepMsg rc false m).2.2.1) := by
  by_cases hf : m.fetchOk
  · by_cases hr : m.hasRaw
    · cases hdest : map_labels_to_destination rc.mapCfg (.list m.labels) with
      | none =>
        have hT := stepMsg_eq_of_drop rc true m hf hr hdest
        have hF := stepMsg_eq_of_drop rc false m hf hr hdest
        refine ⟨?_, ?_, ?_, ?_⟩
        · simp only [hT, List.filter_append]
          rw [collect_sender_no_mut, extrIf_no_mut]
          rfl
        · simp only [hT, hF, List.filter_append]
          rw [extrIf_stat_eq]
        · simp [hT, hF]
        · simp [hT, hF]
      | some dest =>
        have hT := stepMsg_eq_of_dest rc true m dest hf hr hdest
        have hF := stepMsg_eq_of_dest rc false m dest hf hr hdest
        refine ⟨?_, ?_, ?_, ?_⟩
        · simp only [hT, List.filter_append]
          rw [collect_sender_no_mut, extrIf_no_mut]
          simp
        · simp only [hT, hF, List.filter_append]
          rw [extrIf_stat_eq]
          simp [Ev.isStat]
        · simp [hT, hF]
        · simp [hT, hF]
    · simp [stepMsg, hf, hr]
  · simp [stepMsg, hf]

/-- A periodic-checkpoint event list never holds a mutating or a
statistics event. -/
theorem ckpt_filter_empty (p : Ev → Bool)
    (hsave : ∀ a b c : Nat, p (Ev.saveCheckpoint a b c) = false) (g : Bool) (i a b c : Nat) :
    ((if g then [] else if i % 100 = 0 then [Ev.saveCheckpoint a b c] else []).filter p) = [] := by
  split
  · rfl
  · split
    · simp [hsave]
    · rfl

/-- The migration loop in simulation mode issues no mutating command. -/
theorem migrateLoop_sim_no_mut (rc : RunCfg) (halt : Option (Nat × HaltKind)) :
    ∀ (msgs : List Msg) (idx t sk : Nat),
    (migrateLoop rc true halt msgs idx t sk).1.filter Ev.isMutating = [] := by
  intro msgs
  induction msgs with
  | nil => intro idx t sk; rfl
  | cons m rest ih =>
    intro idx t sk
    simp only [migrateLoop]
    by_cases hh : haltsAt halt idx
    · simp [hh]
    · simp only [hh, Bool.false_eq_true, if_false, List.filter_append]
      rw [(stepMsg_simulation rc m).1, ih,
        ckpt_filter_empty Ev.isMutating (fun _ _ _ => rfl)]
      rfl

/-- The migration loop's statistics trace does not depend on the
simulation flag, whatever the running counters are. -/
theorem migrateLoop_stat_eq (rc : RunCfg) (halt : Option (Nat × HaltKind)) :
    ∀ (msgs : List Msg) (idx t1 sk1 t2 sk2 : Nat),
    (migrateLoop rc true halt msgs idx t1 sk1).1.filter Ev.isStat
      = (migrateLoop rc false halt msgs idx t2 sk2).1.filter Ev.isStat := by
  intro msgs
  induction msgs with
  | nil => intro idx t1 sk1 t2 sk2; rfl
  | cons m rest ih =>
    intro idx t1 sk1 t2 sk2
    simp only [migrateLoop]
    by_cases hh : haltsAt halt idx
    · simp [hh]
    · simp only [hh, Bool.false_eq_true, if_false, List.filter_append]
      rw [(stepMsg_simulation rc m).2.1,
        ckpt_filter_empty Ev.isStat (fun _ _ _ => rfl),
        ckpt_filter_empty Ev.isStat (fun _ _ _ => rfl),
        ih (idx + 1) (t1 + (stepMsg rc true m).2.2.1) (sk1 + (stepMsg rc true m).2.2.2)
          (t2 + (stepMsg rc false m).2.2.1) (sk2 + (stepMsg rc false m).2.2.2)]

/-- Flattening lists that each filter to nothing filters to nothing. -/
theorem filter_flatten_nil (p : Ev → Bool) (ls : List (List Ev))
    (h : ∀ x ∈ ls, x.filter p = []) : ls.flatten.filter p = [] := by
  induction ls with
  | nil => rfl
  | cons x xs ih =>
    rw [List.flatten_cons, List.filter_append, h x (by simp), ih (fun y hy => h y (by simp [hy]))]
    rfl

/-- `migrate_all` in simulation mode issues no mutating command (no
append; the checkpoint-file writes are not protocol commands or
attachment writes). -/
theorem migrate_all_sim_no_mut (rc : RunCfg) (msgs : List Msg)
    (halt : Option (Nat × HaltKind)) (start t0 s0 : Nat) :
    (migrate_all rc true msgs halt start t0 s0).1.filter Ev.isMutating = [] := by
  have hloop := migrateLoop_sim_no_mut rc halt (msgs.drop start) start t0 s0
  rcases halt with _ | ⟨k, hk⟩
  · simp only [migrate_all, exnSaveEvents, List.filter_append]
    rw [hloop]
    repeat' split
    all_goals simp [Ev.isMutating]
  · cases hk
    · simp only [migrate_all, exnSaveEvents, List.filter_append]
      rw [hloop]
      repeat' split
      all_goals simp [Ev.isMutating]
    · simp only [migrate_all, exnSaveEvents, List.filter_append]
      rw [hloop]
      repeat' split
      all_goals simp [Ev.isMutating]

/-- The statistics trace of `migrate_all` does not depend on the
simulation flag. -/
theorem migrate_all_stat_eq (rc : RunCfg) (msgs : List Msg)
    (halt : Option (Nat × HaltKind)) (start t0 s0 : Nat) :
    (migrate_all rc true msgs halt start t0 s0).1.filter Ev.isStat
      = (migrate_all rc false msgs halt start t0 s0).1.filter Ev.isStat := by
  have hloop := migrateLoop_stat_eq rc halt (msgs.drop start) start t0 s0 t0 s0
  rcases halt with _ | ⟨k, hk⟩
  · simp only [migrate_all, exnSaveEvents, List.filter_append]
    rw [hloop]
    repeat' split
    all_goals simp [Ev.isStat]
  · cases hk
    · simp only [migrate_all, exnSaveEvents, List.filter_append]
      rw [hloop]
      repeat' split
      all_goals simp [Ev.isStat]
    · simp only [migrate_all, exnSaveEvents, List.filter_append]
      rw [hloop]
      repeat' split
      all_goals simp [Ev.isStat]

/-- Folder creation on the live path carries no statistics event. -/
theorem create_folder_no_stat (name : String) (simulation createOk : Bool) :
    (create_folder_if_not_exists name simulation createOk).filter Ev.isStat = [] := by
  simp only [create_folder_if_not_exists]
  split
  · rfl
  · split
    · rfl
    · split <;> simp [Ev.isStat]

/-- The source-folder statistics of the mapping report. -/
theorem source_folder_stats_no_mut (srcs : List String) :
    (srcs.map (fun src => Ev.stat "source_folders" src 1)).filter Ev.isMutating = [] := by
  induction srcs with
  | nil => rfl
  | cons x xs ih => simp [Ev.isMutating, ih]

/-- C7: with simulation=true, no mutating protocol command is issued
(no folder create, no subscribe, no append) and no attachment file or
storage directory is written, while the folder-mapping report and the
statistics traces equal those of a live run over the same input — for
folder creation, attachment saving, the migration loop, and the
preparation phase. -/
theorem C7_simulation_is_pure :
    (∀ (name : String) (createOk : Bool),
      create_folder_if_not_exists name true createOk = []) ∧
    (∀ (cfg : AttachCfg) (part : APart) (mf : String),
      (save_attachment cfg part mf true).1.filter Ev.isMutating = [] ∧
      (save_attachment cfg part mf true).1.filter Ev.isStat
        = (save_attachment cfg part mf false).1.filter Ev.isStat ∧
      (save_attachment cfg part mf true).2 = (save_attachment cfg part mf false).2) ∧
    (∀ (rc : RunCfg) (msgs : List Msg) (halt : Option (Nat × HaltKind)) (start t0 s0 : Nat),
      (migrate_all rc true msgs halt start t0 s0).1.filter Ev.isMutating = [] ∧
      (migrate_all rc true msgs halt start t0 s0).1.filter Ev.isStat
        = (migrate_all rc false msgs halt start t0 s0).1.filter Ev.isStat) ∧
    (∀ (cfg : MapCfg) (srcs dsts : List String) (createOk : String → Bool),
      (prepare cfg srcs dsts createOk true).1.filter Ev.isMutating = [] ∧
      (prepare cfg srcs dsts createOk true).2 = (prepare cfg srcs dsts createOk false).2 ∧
      (prepare cfg srcs dsts createOk true).1.filter Ev.isStat
        = (prepare cfg srcs dsts createOk false).1.filter Ev.isStat) := by
  refine ⟨?_, ?_, ?_, ?_⟩
  · intro name createOk
    simp only [create_folder_if_not_exists]
    split
    · rfl
    · rfl
  · intro cfg part mf
    exact save_attachment_simulation cfg part mf
  · intro rc msgs halt start t0 s0
    exact ⟨migrate_all_sim_no_mut rc msgs halt start t0 s0,
      migrate_all_stat_eq rc msgs halt start t0 s0⟩
  · intro cfg srcs dsts createOk
    refine ⟨?_, rfl, ?_⟩
    · simp only [prepare, get_folder_mapping_info, List.filter_append]
      rw [source_folder_stats_no_mut]
      rw [filter_flatten_nil Ev.isMutating _ (by
        intro x hx
        simp only [List.mem_map] at hx
        obtain ⟨e, he, rfl⟩ := hx
        split
        · simp only [create_folder_if_not_exists]
          split
          · rfl
          · rfl
        · rfl)]
      rfl
    · simp only [prepare, get_folder_mapping_info, List.filter_append]
      congr 1
      rw [filter_flatten_nil Ev.isStat _ (by
        intro x hx
        simp only [List.mem_map] at hx
        obtain ⟨e, he, rfl⟩ := hx
        split
        · exact create_folder_no_stat e.2.1 true (createOk e.2.1)
        · rfl)]
      rw [filter_flatten_nil Ev.isStat _ (by
        intro x hx
        simp only [List.mem_map] at hx
        obtain ⟨e, he, rfl⟩ := hx
        split
        · exact create_folder_no_stat e.2.1 false (createOk e.2.1)
        · rfl)]

/-- `savedIndices` is the filterMap of `toSaveIndex`. -/
theorem savedIndices_eq_filterMap (evs : List Ev) :
    savedIndices evs = evs.filterMap toSaveIndex := by
  induction evs with
  | nil => rfl
  | cons e es ih =>
    cases e <;> simp [savedIndices, toSaveIndex, List.filterMap_cons] at ih ⊢ <;> exact ih

/-- `savedIndices` distributes over append. -/
theorem savedIndices_append (a b : List Ev) :
    savedIndices (a ++ b) = savedIndices a ++ savedIndices b := by
  rw [savedIndices_eq_filterMap, savedIndices_eq_filterMap, savedIndices_eq_filterMap]
  exact List.filterMap_append a b toSaveIndex

/-- A statistics or mutating event is neither a checkpoint write nor
the checkpoint deletion. -/
theorem ev_class_not_checkpoint (e : Ev) (h : (e.isStat || e.isMutating) = true) :
    toSaveIndex e = none ∧ e ≠ Ev.deleteCheckpoint := by
  cases e <;> simp_all [Ev.isStat, Ev.isMutating, toSaveIndex]

/-- Every effect of `save_attachment` is a statistic or a filesystem
write. -/
theorem save_attachment_events_class (cfg : AttachCfg) (part : APart) (mf : String)
    (simulation : Bool) :
    ∀ e ∈ (save_attachment cfg part mf simulation).1, (e.isStat || e.isMutating) = true := by
  intro e he
  cases hf : part.filename with
  | none => simp [save_attachment, hf] at he
  | some fn =>
    by_cases h0 : fn = ""
    · simp [save_attachment, hf, h0] at he
    · cases simulation <;> simp [save_attachment, hf, h0] at he <;>
        rcases he with rfl | rfl | rfl <;> rfl

/-- Every effect of the should-extract decision is a statistic. -/
theorem should_extract_events_class (cfg : AttachCfg) (part : APart) :
    ∀ e ∈ (should_extract_attachment cfg part).1, (e.isStat || e.isMutating) = true := by
  intro e he
  cases hf : part.filename with
  | none => simp [should_extract_attachment, hf] at he
  | some fn =>
    by_cases h0 : fn = ""
    · simp [should_extract_attachment, hf, h0] at he
    · simp [should_extract_attachment, hf, h0] at he
      subst he
      rfl

/-- Every effect of per-part extraction is a statistic or a filesystem
write. -/
theorem extractPartEvents_class (cfg : AttachCfg) (mf : String) (simulation : Bool)
    (part : APart) :
    ∀ e ∈ extractPartEvents cfg mf simulation part, (e.isStat || e.isMutating) = true := by
  intro e he
  cases hf : part.filename with
  | none => simp [extractPartEvents, hf] at he
  | some fn =>
    by_cases h0 : fn = ""
    · simp [extractPartEvents, hf, h0] at he
    · have he2 : e ∈ (should_extract_attachment cfg part).1
          ++ (if (should_extract_attachment cfg part).2 then
                (save_attachment cfg part mf simulation).1
              else []) := by
        simpa [extractPartEvents, hf, h0] using he
      rcases List.mem_append.mp he2 with he | he
      · exact should_extract_events_class cfg part e he
      · rcases hdec : (should_extract_attachment cfg part).2 with _ | _ <;> rw [hdec] at he
        · simp at he
        · simp only [if_true] at he
          exact save_attachment_events_class cfg part mf simulation e he

/-- Every effect of whole-message extraction is a statistic or a
filesystem write. -/
theorem extract_events_class (cfg : AttachCfg) (mp : Bool) (parts : List APart)
    (mf : String) (simulation : Bool) :
    ∀ e ∈ extract_and_replace_attachments cfg mp parts mf simulation,
      (e.isStat || e.isMutating) = true := by
  intro e he
  cases mp with
  | false => simp [extract_and_replace_attachments] at he
  | true =>
    simp only [extract_and_replace_attachments, if_true, List.mem_flatten, List.mem_map] at he
    obtain ⟨x, ⟨p, hp, rfl⟩, hx⟩ := he
    exact extractPartEvents_class cfg mf simulation p e hx

/-- Every effect of one loop iteration (before the checkpoint check) is
a statistic or a mutating command — never a checkpoint event. -/
theorem stepMsg_events_class (rc : RunCfg) (simulation : Bool) (m : Msg) :
    ∀ e ∈ (stepMsg rc simulation m).1, (e.isStat || e.isMutating) = true := by
  intro e he
  by_cases hf : m.fetchOk
  · by_cases hr : m.hasRaw
    · have hmem : ∀ x ∈ collect_sender_statistic m.fromHeader
          ++ (if rc.extractAttachments then
                extract_and_replace_attachments rc.acfg m.multipart m.parts m.monthFolder simulation
              else []), (x.isStat || x.isMutating) = true := by
        intro x hx
        rcases List.mem_append.mp hx with hx | hx
        · simp only [collect_sender_statistic, List.mem_singleton] at hx
          subst hx
          rfl
        · rcases hea : rc.extractAttachments with _ | _ <;> rw [hea] at hx
          · simp at hx
          · simp only [if_true] at hx
            exact extract_events_class rc.acfg m.multipart m.parts m.monthFolder simulation x hx
      cases hdest : map_labels_to_destination rc.mapCfg (.list m.labels) with
      | none =>
        rw [stepMsg_eq_of_drop rc simulation m hf hr hdest] at he
        exact hmem e he
      | some dest =>
        rw [stepMsg_eq_of_dest rc simulation m dest hf hr hdest] at he
        rcases List.mem_append.mp he with he | he
        · exact hmem e he
        · rcases simulation with _ | _ <;> simp at he
          subst he
          rfl
    · simp [stepMsg, hf, hr] at he
  · simp [stepMsg, hf] at he

/-- One loop iteration writes no checkpoint and deletes none. -/
theorem stepMsg_no_checkpoint (rc : RunCfg) (simulation : Bool) (m : Msg) :
    savedIndices (stepMsg rc simulation m).1 = [] ∧
    Ev.deleteCheckpoint ∉ (stepMsg rc simulation m).1 := by
  constructor
  · rw [savedIndices_eq_filterMap]
    exact List.filterMap_eq_nil_iff.mpr (fun e he =>
      (ev_class_not_checkpoint e (stepMsg_events_class rc simulation m e he)).1)
  · intro hmem
    exact (ev_class_not_checkpoint _ (stepMsg_events_class rc simulation m _ hmem)).2 rfl

/-- Structural invariants of the migration loop: the final index never
moves backward; every checkpoint written carries an index between the
entry index and the final index; the written indices are
non-decreasing; the loop never deletes the checkpoint; and a completed
loop has advanced over every remaining message. -/
theorem migrateLoop_invariants (rc : RunCfg) (simulation : Bool)
    (halt : Option (Nat × HaltKind)) :
    ∀ (msgs : List Msg) (idx t s : Nat),
    idx ≤ (migrateLoop rc simulation halt msgs idx t s).2.1 ∧
    (∀ i ∈ savedIndices (migrateLoop rc simulation halt msgs idx t s).1,
      idx ≤ i ∧ i ≤ (migrateLoop rc simulation halt msgs idx t s).2.1) ∧
    List.Chain' (· ≤ ·) (savedIndices (migrateLoop rc simulation halt msgs idx t s).1) ∧
    Ev.deleteCheckpoint ∉ (migrateLoop rc simulation halt msgs idx t s).1 ∧
    ((migrateLoop rc simulation halt msgs idx t s).2.2.2.2 = true →
      (migrateLoop rc simulation halt msgs idx t s).2.1 = idx + msgs.length) := by
  intro msgs
  induction msgs with
  | nil =>
    intro idx t s
    exact ⟨Nat.le_refl idx, by simp [migrateLoop, savedIndices],
      by simp [migrateLoop, savedIndices], by simp [migrateLoop], fun _ => by simp [migrateLoop]⟩
  | cons m rest ih =>
    intro idx t s
    by_cases hh : haltsAt halt idx
    · refine ⟨?_, ?_, ?_, ?_, ?_⟩ <;> simp [migrateLoop, hh, savedIndices]
    · have hstep := stepMsg_no_checkpoint rc simulation m
      obtain ⟨ih1, ih2, ih3, ih4, ih5⟩ :=
        ih (idx + 1) (t + (stepMsg rc simulation m).2.2.1) (s + (stepMsg rc simulation m).2.2.2)
      have hunf1 : (migrateLoop rc simulation halt (m :: rest) idx t s).1
          = (stepMsg rc simulation m).1
              ++ (if (stepMsg rc simulation m).2.1 then []
                  else if idx % 100 = 0 then
                    [Ev.saveCheckpoint idx (t + (stepMsg rc simulation m).2.2.1)
                      (s + (stepMsg rc simulation m).2.2.2)]
                  else [])
              ++ (migrateLoop rc simulation halt rest (idx + 1)
                    (t + (stepMsg rc simulation m).2.2.1)
                    (s + (stepMsg rc simulation m).2.2.2)).1 := by
        simp [migrateLoop, hh]
      have hunf2 : (migrateLoop rc simulation halt (m :: rest) idx t s).2
          = (migrateLoop rc simulation halt rest (idx + 1)
              (t + (stepMsg rc simulation m).2.2.1)
              (s + (stepMsg rc simulation m).2.2.2)).2 := by
        simp [migrateLoop, hh]
      rw [hunf1, hunf2]
      have hckSaved : savedIndices (if (stepMsg rc simulation m).2.1 then []
          else if idx % 100 = 0 then
            [Ev.saveCheckpoint idx (t + (stepMsg rc simulation m).2.2.1)
              (s + (stepMsg rc simulation m).2.2.2)]
          else []) = [] ∨
        savedIndices (if (stepMsg rc simulation m).2.1 then []
          else if idx % 100 = 0 then
            [Ev.saveCheckpoint idx (t + (stepMsg rc simulation m).2.2.1)
              (s + (stepMsg rc simulation m).2.2.2)]
          else []) = [idx] := by
        split
        · exact Or.inl rfl
        · split
          · exact Or.inr rfl
          · exact Or.inl rfl
      refine ⟨by omega, ?_, ?_, ?_, ?_⟩
      · intro i hi
        simp only [savedIndices_append, hstep.1, List.nil_append, List.mem_append] at hi
        rcases hi with hi | hi
        · rcases hckSaved with hck | hck <;> rw [hck] at hi
          · simp at hi
          · simp only [List.mem_singleton] at hi
            subst hi
            omega
        · have := ih2 i hi
          omega
      · simp only [savedIndices_append, hstep.1, List.nil_append]
        rcases hckSaved with hck | hck <;> rw [hck]
        · simpa using ih3
        · simp only [List.singleton_append]
          refine List.chain'_cons'.mpr ⟨?_, ih3⟩
          intro y hy
          have := ih2 y (List.mem_of_mem_head? hy)
          omega
      · simp only [List.mem_append]
        rintro ((hmem | hmem) | hmem)
        · exact hstep.2 hmem
        · rcases hckSaved with hck | hck
          · revert hmem
            split
            · simp
            · split
              · intro hmem
                simp at hmem
              · simp
          · revert hmem
            split
            · simp
            · split
              · intro hmem
                simp at hmem
              · simp
        · exact ih4 hmem
      · intro hdone
        have := ih5 hdone
        simp only [List.length_cons]
        omega

/-- `savesAtIndex` distributes over append as a disjunction. -/
theorem savesAtIndex_append (n : Nat) (a b : List Ev) :
    savesAtIndex n (a ++ b) = (savesAtIndex n a || savesAtIndex n b) := by
  simp [savesAtIndex, List.any_append]

/-- In a halt-free run, an index divisible by 100 whose iteration
completes without an early continue gets a checkpoint written by the
loop. -/
theorem migrateLoop_periodic (rc : RunCfg) (simulation : Bool) :
    ∀ (msgs : List Msg) (idx t s j : Nat) (mj : Msg),
    idx ≤ j → j % 100 = 0 → msgs[j - idx]? = some mj →
    (stepMsg rc simulation mj).2.1 = false →
    savesAtIndex j (migrateLoop rc simulation none msgs idx t s).1 = true := by
  intro msgs
  induction msgs with
  | nil =>
    intro idx t s j mj _ _ hget _
    simp at hget
  | cons m rest ih =>
    intro idx t s j mj hle hmod hget hcont
    have hunf1 : (migrateLoop rc simulation none (m :: rest) idx t s).1
        = (stepMsg rc simulation m).1
            ++ (if (stepMsg rc simulation m).2.1 then []
                else if idx % 100 = 0 then
                  [Ev.saveCheckpoint idx (t + (stepMsg rc simulation m).2.2.1)
                    (s + (stepMsg rc simulation m).2.2.2)]
                else [])
            ++ (migrateLoop rc simulation none rest (idx + 1)
                  (t + (stepMsg rc simulation m).2.2.1)
                  (s + (stepMsg rc simulation m).2.2.2)).1 := by
      simp [migrateLoop, haltsAt]
    rw [hunf1, savesAtIndex_append, savesAtIndex_append]
    by_cases hji : j = idx
    · subst hji
      have hm : mj = m := by
        rw [Nat.sub_self] at hget
        simp only [List.getElem?_cons_zero, Option.some.injEq] at hget
        exact hget.symm
      subst hm
      rw [hcont]
      simp [hmod, savesAtIndex]
    · have heq : j - idx = (j - (idx + 1)) + 1 := by omega
      rw [heq] at hget
      simp only [List.getElem?_cons_succ] at hget
      have hrec := ih (idx + 1) (t + (stepMsg rc simulation m).2.2.1)
        (s + (stepMsg rc simulation m).2.2.2) j mj (by omega) hmod hget hcont
      rw [hrec]
      simp

/-- Appending a single upper bound preserves a non-decreasing chain. -/
theorem chain_append_ub (A : List Nat) (b : Nat) (hA : List.Chain' (· ≤ ·) A)
    (hb : ∀ x ∈ A, x ≤ b) : List.Chain' (· ≤ ·) (A ++ [b]) := by
  refine List.chain'_append.mpr ⟨hA, List.chain'_singleton b, ?_⟩
  intro x hx y hy
  simp only [List.head?_cons, Option.mem_def, Option.some.injEq] at hy
  subst hy
  exact hb x (List.mem_of_mem_getLast? hx)

/-- A list whose elements are all equal is a non-decreasing chain. -/
theorem chain_of_all_eq (b : Nat) : ∀ (B : List Nat), (∀ y ∈ B, y = b) →
    List.Chain' (· ≤ ·) B := by
  intro B
  induction B with
  | nil => intro _; simp
  | cons y ys ih =>
    intro h
    refine List.chain'_cons'.mpr ⟨?_, ih (fun z hz => h z (by simp [hz]))⟩
    intro z hz
    have hzb := h z (by simp [List.mem_of_mem_head? hz])
    have hyb := h y (by simp)
    omega

/-- Appending saves at the final index preserves a non-decreasing chain
of bounded saves. -/
theorem chain_append_ub2 (A : List Nat) (b : Nat) (B : List Nat)
    (hA : List.Chain' (· ≤ ·) A) (hb : ∀ x ∈ A, x ≤ b) (hB : ∀ y ∈ B, y = b) :
    List.Chain' (· ≤ ·) (A ++ B) := by
  refine List.chain'_append.mpr ⟨hA, chain_of_all_eq b B hB, ?_⟩
  intro x hx y hy
  have := hB y (List.mem_of_mem_head? hy)
  have := hb x (List.mem_of_mem_getLast? hx)
  omega

/-- The empty trace saves nothing. -/
theorem savedIndices_nil : savedIndices [] = [] := rfl

/-- A single checkpoint write saves its index. -/
theorem savedIndices_save (i a b : Nat) :
    savedIndices [Ev.saveCheckpoint i a b] = [i] := rfl

/-- The except-branch write is either absent or a single write at the
final position. -/
theorem exnSaveEvents_cases (halt : Option (Nat × HaltKind)) (d : Bool) (i a b : Nat) :
    exnSaveEvents halt d i a b = [] ∨
    exnSaveEvents halt d i a b = [Ev.saveCheckpoint i a b] := by
  rcases halt with _ | ⟨k, hk⟩
  · exact Or.inl rfl
  · cases hk
    · exact Or.inl rfl
    · cases d
      · exact Or.inr rfl
      · exact Or.inl rfl

/-- C1 amended: throughout `migrate_all` the persisted checkpoint index
is monotonically non-decreasing within a run; a checkpoint is written
on every exit path (normal completion, interrupt, unexpected
exception), and during the loop at every index divisible by 100 whose
iteration completes without an early-continue skip (a fetch failure or
a dropped destination at such an index bypasses the periodic write);
the checkpoint file is deleted only after a fully successful pass over
all enumerated messages, as the final event of the run. -/
theorem C1_checkpoint_lifecycle_amended (rc : RunCfg) (simulation : Bool) (msgs : List Msg)
    (halt : Option (Nat × HaltKind)) (start t0 s0 : Nat) :
    List.Chain' (· ≤ ·) (savedIndices (migrate_all rc simulation msgs halt start t0 s0).1) ∧
    savedIndices (migrate_all rc simulation msgs halt start t0 s0).1 ≠ [] ∧
    (Ev.deleteCheckpoint ∈ (migrate_all rc simulation msgs halt start t0 s0).1 ↔
      (migrate_all rc simulation msgs halt start t0 s0).2.2.2.2 = true) ∧
    ((migrate_all rc simulation msgs halt start t0 s0).2.2.2.2 = true →
      (migrate_all rc simulation msgs halt start t0 s0).1.getLast? = some Ev.deleteCheckpoint ∧
      (migrate_all rc simulation msgs halt start t0 s0).2.1 = start + (msgs.drop start).length) ∧
    (∀ (j : Nat) (mj : Msg), halt = none → start ≤ j → j % 100 = 0 → msgs[j]? = some mj →
      (stepMsg rc simulation mj).2.1 = false →
      savesAtIndex j (migrate_all rc simulation msgs halt start t0 s0).1 = true) := by
  obtain ⟨inv1, inv2, inv3, inv4, inv5⟩ :=
    migrateLoop_invariants rc simulation halt (msgs.drop start) start t0 s0
  have hev : (migrate_all rc simulation msgs halt start t0 s0).1
      = (migrateLoop rc simulation halt (msgs.drop start) start t0 s0).1
        ++ exnSaveEvents halt
          (migrateLoop rc simulation halt (msgs.drop start) start t0 s0).2.2.2.2
          (migrateLoop rc simulation halt (msgs.drop start) start t0 s0).2.1
          (migrateLoop rc simulation halt (msgs.drop start) start t0 s0).2.2.1
          (migrateLoop rc simulation halt (msgs.drop start) start t0 s0).2.2.2.1
        ++ [Ev.saveCheckpoint
          (migrateLoop rc simulation halt (msgs.drop start) start t0 s0).2.1
          (migrateLoop rc simulation halt (msgs.drop start) start t0 s0).2.2.1
          (migrateLoop rc simulation halt (msgs.drop start) start t0 s0).2.2.2.1]
        ++ (if (migrateLoop rc simulation halt (msgs.drop start) start t0 s0).2.2.2.2
            then [Ev.deleteCheckpoint] else []) := rfl
  have hres : (migrate_all rc simulation msgs halt start t0 s0).2
      = (migrateLoop rc simulation halt (msgs.drop start) start t0 s0).2 := rfl
  set L := migrateLoop rc simulation halt (msgs.drop start) start t0 s0 with hL
  rw [hev, hres]
  have hDsaved : savedIndices (if L.2.2.2.2 then [Ev.deleteCheckpoint] else []) = [] := by
    split <;> rfl
  have hbound : ∀ x ∈ savedIndices L.1, x ≤ L.2.1 := fun x hx => (inv2 x hx).2
  refine ⟨?_, ?_, ?_, ?_, ?_⟩
  · rw [savedIndices_append, savedIndices_append, savedIndices_append, hDsaved,
      List.append_nil]
    rcases exnSaveEvents_cases halt L.2.2.2.2 L.2.1 L.2.2.1 L.2.2.2.1 with hE | hE <;>
      rw [hE]
    · rw [savedIndices_nil, List.append_nil, savedIndices_save]
      refine chain_append_ub2 _ L.2.1 _ inv3 hbound ?_
      intro y hy
      simpa using hy
    · rw [savedIndices_save, List.append_assoc]
      refine chain_append_ub2 _ L.2.1 _ inv3 hbound ?_
      intro y hy
      simpa using hy
  · rw [savedIndices_append, savedIndices_append, savedIndices_append, savedIndices_save]
    intro hnil
    have hlen := congrArg List.length hnil
    simp only [List.length_append, List.length_cons, List.length_nil] at hlen
    omega
  · constructor
    · intro hmem
      rcases List.mem_append.mp hmem with hmem | hmem
      · exfalso
        rcases List.mem_append.mp hmem with hmem | hmem
        · rcases List.mem_append.mp hmem with hmem | hmem
          · exact inv4 hmem
          · rcases exnSaveEvents_cases halt L.2.2.2.2 L.2.1 L.2.2.1 L.2.2.2.1 with hE | hE <;>
              rw [hE] at hmem <;> simp at hmem
        · simp at hmem
      · revert hmem
        split
        · intro _
          assumption
        · intro hmem
          simp at hmem
    · intro hdone
      rw [if_pos hdone]
      simp
  · intro hdone
    rw [if_pos hdone]
    exact ⟨List.getLast?_concat _, inv5 hdone⟩
  · intro j mj hhalt hle hmod hget hcont
    subst hhalt
    have hget2 : (msgs.drop start)[j - start]? = some mj := by
      rw [List.getElem?_drop]
      rw [show start + (j - start) = j from by omega]
      exact hget
    have hsave := migrateLoop_periodic rc simulation (msgs.drop start) start t0 s0 j mj
      hle hmod hget2 hcont
    rw [savesAtIndex_append, savesAtIndex_append, savesAtIndex_append]
    have hsave2 : savesAtIndex j L.1 = true := by
      rw [hL]
      exact hsave
    rw [hsave2]
    simp

set_option maxRecDepth 100000 in
/-- C1 counterexample: in a live, halt-free run over 201 messages whose
messages at indices 100 and 200 fail to fetch, the run completes
normally having processed all 201 messages, yet no checkpoint is
written at index 100 or 200 — 200 consecutive messages pass without a
periodic checkpoint write, so a checkpoint is not written every 100
processed messages as the claim states. -/
theorem C1_counterexample_skip_bypasses_periodic_save :
    savesAtIndex 100 (migrate_all rcC1 false msgsC1 none 0 0 0).1 = false ∧
    savesAtIndex 200 (migrate_all rcC1 false msgsC1 none 0 0 0).1 = false ∧
    (migrate_all rcC1 false msgsC1 none 0 0 0).2.1 = 201 ∧
    (migrate_all rcC1 false msgsC1 none 0 0 0).2.2.2.2 = true := by
  refine ⟨?_, ?_, ?_, ?_⟩ <;> rfl

/-- C1 witness: in the one-message run the periodic write fires at
index 0 (0 is divisible by 100 and the iteration completes normally). -/
theorem C1_witness :
    savesAtIndex 0 (migrate_all rcC1 false [okMsgC1] none 0 0 0).1 = true :=
  (C1_checkpoint_lifecycle_amended rcC1 false [okMsgC1] none 0 0 0).2.2.2.2 0 okMsgC1
    rfl (by decide) (by decide) rfl (by rfl)

/-- C5 counterexample: a folder name containing a space does not
round-trip — `encode_imap_utf7` quotes any encoded name still holding a
space, and the decode never strips quotes, so the decoded result keeps
the added quotation marks. -/
theorem C5_counterexample_space_is_quoted :
    decode_imap_utf7 (encode_folder "a b") = .ok "\"a b\"" ∧
    replaceChar '/' '.' "a b" = "a b" ∧
    ("\"a b\"" : String) ≠ "a b" := by
  refine ⟨rfl, rfl, by decide⟩

/-- The scan of `subDecode` does not depend on its fuel, as long as the
fuel covers the input length. -/
theorem subDecodeF_fuel : ∀ (k n m : Nat) (l : List Char), l.length ≤ n → l.length ≤ m →
    l.length ≤ k → subDecodeF n l = subDecodeF m l := by
  intro k
  induction k with
  | zero =>
    intro n m l _ _ hk
    have hl : l = [] := List.length_eq_zero.mp (Nat.le_zero.mp hk)
    subst hl
    cases n <;> cases m <;> rfl
  | succ k ih =>
    intro n m l hn hm hk
    cases l with
    | nil => cases n <;> cases m <;> rfl
    | cons c cs =>
      cases n with
      | zero => simp at hn
      | succ n2 =>
        cases m with
        | zero => simp at hm
        | succ m2 =>
          simp only [List.length_cons, Nat.succ_le_succ_iff] at hn hm hk
          have hcs : subDecodeF n2 cs = subDecodeF m2 cs := ih n2 m2 cs hn hm hk
          have htl : subDecodeF n2 (cs.drop (cs.takeWhile (· ≠ '-')).length).tail
              = subDecodeF m2 (cs.drop (cs.takeWhile (· ≠ '-')).length).tail := by
            have h1 : (cs.drop (cs.takeWhile (· ≠ '-')).length).tail.length ≤ cs.length := by
              have h2 := List.length_tail (cs.drop (cs.takeWhile (· ≠ '-')).length)
              have h3 := cs.length_drop (cs.takeWhile (· ≠ '-')).length
              omega
            exact ih n2 m2 _ (by omega) (by omega) (by omega)
          simp only [subDecodeF, hcs, htl]

/-- Unfolding `subDecode` on a non-ampersand head: the character passes
through and scanning continues. -/
theorem subDecode_cons_lit (c : Char) (cs : List Char) (hc : c ≠ '&') :
    subDecode (c :: cs) = match subDecode cs with
      | .ok tl => .ok (c :: tl)
      | .error e => .error e := by
  show subDecodeF (cs.length + 1) (c :: cs) = _
  simp only [subDecodeF, if_neg hc]
  rfl

/-- Unfolding one ampersand step of the scan. -/
theorem subDecodeF_cons_amp (n : Nat) (cs : List Char) :
    subDecodeF (n + 1) ('&' :: cs) =
      (if (cs.takeWhile (· ≠ '-')).isEmpty then
        match subDecodeF n cs with
        | .ok tl => .ok ('&' :: tl)
        | .error e => .error e
      else if (cs.drop (cs.takeWhile (· ≠ '-')).length).head? = some '-' then
        match decodeGroup (cs.takeWhile (· ≠ '-')),
            subDecodeF n (cs.drop (cs.takeWhile (· ≠ '-')).length).tail with
        | .ok g, .ok tl => .ok (g ++ tl)
        | .error e, _ => .error e
        | _, .error e => .error e
      else
        match subDecodeF n cs with
        | .ok tl => .ok ('&' :: tl)
        | .error e => .error e) := by
  simp [subDecodeF]

/-- The scan's group capture: a run of non-dash characters up to the
closing dash. -/
theorem takeWhile_ne_dash (rest : List Char) : ∀ (grp : List Char),
    (∀ x ∈ grp, x ≠ '-') →
    (grp ++ '-' :: rest).takeWhile (· ≠ '-') = grp := by
  intro grp
  induction grp with
  | nil =>
    intro _
    simp [List.takeWhile_cons]
  | cons g gs ihg =>
    intro hnd
    simp only [List.cons_append, List.takeWhile_cons]
    rw [if_pos (by simpa using hnd g (by simp))]
    rw [ihg (fun x hx => hnd x (by simp [hx]))]

/-- Unfolding `subDecode` on a well-formed encoded group: the group is
decoded and scanning continues after the closing dash. -/
theorem subDecode_group (grp rest : List Char) (hne : grp ≠ [])
    (hnd : ∀ x ∈ grp, x ≠ '-') :
    subDecode ('&' :: (grp ++ '-' :: rest)) = match decodeGroup grp, subDecode rest with
      | .ok g, .ok tl => .ok (g ++ tl)
      | .error e, _ => .error e
      | _, .error e => .error e := by
  have htake := takeWhile_ne_dash rest grp hnd
  have hdrop : (grp ++ '-' :: rest).drop grp.length = '-' :: rest := by
    simpa using List.drop_left grp ('-' :: rest)
  show subDecodeF ((grp ++ '-' :: rest).length + 1) ('&' :: (grp ++ '-' :: rest)) = _
  rw [subDecodeF_cons_amp, htake, hdrop]
  rw [if_neg (by simp [hne])]
  rw [if_pos (show ('-' :: rest).head? = some '-' from rfl)]
  simp only [List.tail_cons]
  rw [subDecodeF_fuel ((grp ++ '-' :: rest).length) ((grp ++ '-' :: rest).length)
    rest.length rest (by simp; omega) (le_refl _) (by simp; omega)]
  rfl

/-- A successful alphabet search means membership. -/
theorem findIdx?_isSome_mem {α : Type} (p : α → Bool) : ∀ (l : List α) (i : Nat),
    (List.findIdx? p l i).isSome = true → ∃ c ∈ l, p c = true := by
  intro l
  induction l with
  | nil =>
    intro i h
    simp [List.findIdx?] at h
  | cons x xs ih =>
    intro i h
    have hstep : List.findIdx? p (x :: xs) i
        = if p x then some i else List.findIdx? p xs (i + 1) := rfl
    rw [hstep] at h
    by_cases hx : p x
    · exact ⟨x, by simp, hx⟩
    · rw [if_neg hx] at h
      obtain ⟨c, hc, hpc⟩ := ih (i + 1) h
      exact ⟨c, by simp [hc], hpc⟩

/-- A character with a base64 value is in the alphabet. -/
theorem b64val_isSome_mem (c : Char) (h : (b64val c).isSome = true) : c ∈ b64chars := by
  obtain ⟨d, hd, hpd⟩ := findIdx?_isSome_mem _ _ _ h
  simp only [decide_eq_true_eq] at hpd
  subst hpd
  exact hd

/-- The base64 alphabet is 7-bit and avoids the protocol's special
characters. -/
theorem b64chars_props : ∀ c ∈ b64chars,
    c.toNat ≤ 127 ∧ c ≠ '=' ∧ c ≠ '-' ∧ c ≠ '&' ∧ c ≠ ' ' ∧ c ≠ '"' ∧ c ≠ ',' := by
  decide

/-- The alphabet character of a 6-bit value decodes back to it. -/
theorem b64char_val : ∀ n < 64, b64val (b64char n) = some n := by
  decide

/-- The alphabet character of a 6-bit value is alphabetic. -/
theorem b64char_isSome (n : Nat) (h : n < 64) : (b64val (b64char n)).isSome = true := by
  rw [b64char_val n h]
  rfl

/-- An alphabet character is not the padding character. -/
theorem b64val_ne_eq (c : Char) (h : (b64val c).isSome = true) : c ≠ '=' :=
  (b64chars_props c (b64val_isSome_mem c h)).2.1

/-- `b64decodeModel` with its lets expanded. -/
theorem b64decodeModel_def2 (cs : List Char) :
    b64decodeModel cs =
      (if ((cs.filter (fun c => (b64val c).isSome || c = '=')).length) % 4 ≠ 0 then .error ()
       else if ((cs.filter (fun c => (b64val c).isSome || c = '=')).takeWhile
           (· ≠ '=')).length % 4 = 1 then .error ()
       else .ok (b64decodeVals (((cs.filter (fun c => (b64val c).isSome || c = '=')).takeWhile
           (· ≠ '=')).map (fun c => (b64val c).getD 0)))) := rfl

/-- Prepending one full alphabet quad to the decode input prepends its
three bytes to the result. -/
theorem b64decodeModel_quad (x1 x2 x3 x4 : Char) (E : List Char)
    (h1 : (b64val x1).isSome = true) (h2 : (b64val x2).isSome = true)
    (h3 : (b64val x3).isSome = true) (h4 : (b64val x4).isSome = true) :
    b64decodeModel (x1 :: x2 :: x3 :: x4 :: E)
      = (b64decodeModel E).map (fun r =>
          ((b64val x1).getD 0 * 4 + (b64val x2).getD 0 / 16)
            :: (((b64val x2).getD 0 % 16 * 16 + (b64val x3).getD 0 / 4)
            :: (((b64val x3).getD 0 % 4 * 64 + (b64val x4).getD 0) :: r))) := by
  have hmod4 : ∀ k : Nat, (k + 1 + 1 + 1 + 1) % 4 = k % 4 := fun k => by omega
  have hd1 : (decide ¬(x1 = '=')) = true := by simp [b64val_ne_eq x1 h1]
  have hd2 : (decide ¬(x2 = '=')) = true := by simp [b64val_ne_eq x2 h2]
  have hd3 : (decide ¬(x3 = '=')) = true := by simp [b64val_ne_eq x3 h3]
  have hd4 : (decide ¬(x4 = '=')) = true := by simp [b64val_ne_eq x4 h4]
  rw [b64decodeModel_def2, b64decodeModel_def2]
  simp only [List.filter_cons, h1, h2, h3, h4, Bool.true_or, if_true, List.takeWhile_cons,
    hd1, hd2, hd3, hd4, List.length_cons, hmod4, List.map_cons, b64decodeVals]
  split
  · rfl
  · split
    · rfl
    · rfl

/-- Round trip of the base64 model: decoding an encoded byte string
recovers it. -/
theorem b64_roundtrip : ∀ (k : Nat) (bs : List Nat), bs.length ≤ k →
    (∀ x ∈ bs, x < 256) → b64decodeModel (b64encodeRaw bs) = .ok bs := by
  intro k
  induction k with
  | zero =>
    intro bs hk _
    have hnil : bs = [] := List.length_eq_zero.mp (Nat.le_zero.mp hk)
    subst hnil
    rfl
  | succ k ih =>
    intro bs hk hb
    match bs with
    | [] => rfl
    | [a] =>
      have ha : a < 256 := hb a (by simp)
      have hv1 := b64char_val (a / 4) (by omega)
      have hv2 := b64char_val (a % 4 * 16) (by omega)
      have h1 : (b64val (b64char (a / 4))).isSome = true := by rw [hv1]; rfl
      have h2 : (b64val (b64char (a % 4 * 16))).isSome = true := by rw [hv2]; rfl
      have hd1 : b64char (a / 4) ≠ '=' := b64val_ne_eq _ h1
      have hd2 : b64char (a % 4 * 16) ≠ '=' := b64val_ne_eq _ h2
      rw [show b64encodeRaw [a] = [b64char (a / 4), b64char (a % 4 * 16), '=', '='] from rfl,
        b64decodeModel_def2]
      simp [h1, h2, hd1, hd2, hv1, hv2, b64decodeVals]
      omega
    | [a, b] =>
      have ha : a < 256 := hb a (by simp)
      have hbb : b < 256 := hb b (by simp)
      have hv1 := b64char_val (a / 4) (by omega)
      have hv2 := b64char_val (a % 4 * 16 + b / 16) (by omega)
      have hv3 := b64char_val (b % 16 * 4) (by omega)
      have h1 : (b64val (b64char (a / 4))).isSome = true := by rw [hv1]; rfl
      have h2 : (b64val (b64char (a % 4 * 16 + b / 16))).isSome = true := by rw [hv2]; rfl
      have h3 : (b64val (b64char (b % 16 * 4))).isSome = true := by rw [hv3]; rfl
      have hd1 : b64char (a / 4) ≠ '=' := b64val_ne_eq _ h1
      have hd2 : b64char (a % 4 * 16 + b / 16) ≠ '=' := b64val_ne_eq _ h2
      have hd3 : b64char (b % 16 * 4) ≠ '=' := b64val_ne_eq _ h3
      rw [show b64encodeRaw [a, b]
          = [b64char (a / 4), b64char (a % 4 * 16 + b / 16), b64char (b % 16 * 4), '=']
          from rfl, b64decodeModel_def2]
      simp [h1, h2, h3, hd1, hd2, hd3, hv1, hv2, hv3, b64decodeVals]
      omega
    | a :: b :: c :: rest =>
      have ha : a < 256 := hb a (by simp)
      have hbb : b < 256 := hb b (by simp)
      have hc : c < 256 := hb c (by simp)
      have hv1 := b64char_val (a / 4) (by omega)
      have hv2 := b64char_val (a % 4 * 16 + b / 16) (by omega)
      have hv3 := b64char_val (b % 16 * 4 + c / 64) (by omega)
      have hv4 := b64char_val (c % 64) (by omega)
      have h1 : (b64val (b64char (a / 4))).isSome = true := by rw [hv1]; rfl
      have h2 : (b64val (b64char (a % 4 * 16 + b / 16))).isSome = true := by rw [hv2]; rfl
      have h3 : (b64val (b64char (b % 16 * 4 + c / 64))).isSome = true := by rw [hv3]; rfl
      have h4 : (b64val (b64char (c % 64))).isSome = true := by rw [hv4]; rfl
      rw [show b64encodeRaw (a :: b :: c :: rest)
          = b64char (a / 4) :: b64char (a % 4 * 16 + b / 16)
            :: b64char (b % 16 * 4 + c / 64) :: b64char (c % 64) :: b64encodeRaw rest
          from rfl]
      rw [b64decodeModel_quad _ _ _ _ _ h1 h2 h3 h4]
      rw [ih rest (by simp at hk; omega) (fun x hx => hb x (by simp [hx]))]
      simp only [Except.map, hv1, hv2, hv3, hv4, Option.getD_some]
      refine congrArg Except.ok ?_
      have e1 : a / 4 * 4 + (a % 4 * 16 + b / 16) / 16 = a := by omega
      have e2 : (a % 4 * 16 + b / 16) % 16 * 16 + (b % 16 * 4 + c / 64) / 4 = b := by omega
      have e3 : (b % 16 * 4 + c / 64) % 4 * 64 + c % 64 = c := by omega
      rw [e1, e2, e3]

/-- Stripping a character from the right keeps only members of the
original list. -/
theorem rstrip_subset (a : Char) (l : List Char) : ∀ c ∈ rstripCharList a l, c ∈ l := by
  intro c hc
  unfold rstripCharList at hc
  rw [List.mem_reverse] at hc
  have h2 := (List.dropWhile_sublist (· = a)).subset hc
  simpa using h2

/-- Stripping from the right leaves a list with a non-stripped member
nonempty. -/
theorem rstrip_ne_nil (a : Char) (l : List Char) (h : ∃ c ∈ l, c ≠ a) :
    rstripCharList a l ≠ [] := by
  obtain ⟨c, hc, hne⟩ := h
  intro h0
  unfold rstripCharList at h0
  rw [List.reverse_eq_nil_iff, List.dropWhile_eq_nil_iff] at h0
  exact hne (by simpa using h0 c (by simpa using hc))

/-- Stripping padding from the right passes over a prefix when the
suffix has a non-padding character. -/
theorem rstrip_append (x y : List Char) (h : ∃ c ∈ y, c ≠ '=') :
    rstripCharList '=' (x ++ y) = x ++ rstripCharList '=' y := by
  obtain ⟨c, hc, hne⟩ := h
  unfold rstripCharList
  rw [List.reverse_append, List.dropWhile_append]
  rw [if_neg (by
    simp only [List.isEmpty_iff, List.dropWhile_eq_nil_iff]
    intro hall
    exact hne (by simpa using hall c (by simpa using hc)))]
  rw [List.reverse_append, List.reverse_reverse]

/-- The alphabet character of a 6-bit value is in the alphabet. -/
theorem b64char_mem (n : Nat) (h : n < 64) : b64char n ∈ b64chars :=
  b64val_isSome_mem _ (b64char_isSome n h)

/-- Every character emitted by the base64 encoder is an alphabet
character or padding. -/
theorem b64encodeRaw_chars : ∀ (k : Nat) (bs : List Nat), bs.length ≤ k →
    (∀ x ∈ bs, x < 256) → ∀ d ∈ b64encodeRaw bs, d ∈ b64chars ∨ d = '=' := by
  intro k
  induction k with
  | zero =>
    intro bs hk _ d hd
    have hnil : bs = [] := List.length_eq_zero.mp (Nat.le_zero.mp hk)
    subst hnil
    simp [b64encodeRaw] at hd
  | succ k ih =>
    intro bs hk hb d hd
    match bs with
    | [] => simp [b64encodeRaw] at hd
    | [a] =>
      have ha : a < 256 := hb a (by simp)
      rw [show b64encodeRaw [a] = [b64char (a / 4), b64char (a % 4 * 16), '=', '='] from rfl] at hd
      simp only [List.mem_cons, List.not_mem_nil, or_false] at hd
      rcases hd with rfl | rfl | rfl | rfl
      · exact Or.inl (b64char_mem _ (by omega))
      · exact Or.inl (b64char_mem _ (by omega))
      · exact Or.inr rfl
      · exact Or.inr rfl
    | [a, b] =>
      have ha : a < 256 := hb a (by simp)
      have hbb : b < 256 := hb b (by simp)
      rw [show b64encodeRaw [a, b]
          = [b64char (a / 4), b64char (a % 4 * 16 + b / 16), b64char (b % 16 * 4), '=']
          from rfl] at hd
      simp only [List.mem_cons, List.not_mem_nil, or_false] at hd
      rcases hd with rfl | rfl | rfl | rfl
      · exact Or.inl (b64char_mem _ (by omega))
      · exact Or.inl (b64char_mem _ (by omega))
      · exact Or.inl (b64char_mem _ (by omega))
      · exact Or.inr rfl
    | a :: b :: c :: rest =>
      have ha : a < 256 := hb a (by simp)
      have hbb : b < 256 := hb b (by simp)
      have hc : c < 256 := hb c (by simp)
      rw [show b64encodeRaw (a :: b :: c :: rest)
          = b64char (a / 4) :: b64char (a % 4 * 16 + b / 16)
            :: b64char (b % 16 * 4 + c / 64) :: b64char (c % 64) :: b64encodeRaw rest
          from rfl] at hd
      simp only [List.mem_cons] at hd
      rcases hd with rfl | rfl | rfl | rfl | hd
      · exact Or.inl (b64char_mem _ (by omega))
      · exact Or.inl (b64char_mem _ (by omega))
      · exact Or.inl (b64char_mem _ (by omega))
      · exact Or.inl (b64char_mem _ (by omega))
      · exact ih rest (by simp at hk; omega) (fun x hx => hb x (by simp [hx])) d hd

/-- The base64 encoding of a nonempty byte string contains an alphabet
(non-padding) character. -/
theorem b64encodeRaw_has_alpha (bs : List Nat) (hne : bs ≠ [])
    (hb : ∀ x ∈ bs, x < 256) : ∃ c ∈ b64encodeRaw bs, c ≠ '=' := by
  match bs with
  | [] => exact absurd rfl hne
  | [a] =>
    have ha : a < 256 := hb a (by simp)
    refine ⟨b64char (a / 4), ?_, (b64chars_props _ (b64char_mem _ (by omega))).2.1⟩
    rw [show b64encodeRaw [a] = [b64char (a / 4), b64char (a % 4 * 16), '=', '='] from rfl]
    simp
  | [a, b] =>
    have ha : a < 256 := hb a (by simp)
    refine ⟨b64char (a / 4), ?_, (b64chars_props _ (b64char_mem _ (by omega))).2.1⟩
    rw [show b64encodeRaw [a, b]
        = [b64char (a / 4), b64char (a % 4 * 16 + b / 16), b64char (b % 16 * 4), '=']
        from rfl]
    simp
  | a :: b :: c :: rest =>
    have ha : a < 256 := hb a (by simp)
    refine ⟨b64char (a / 4), ?_, (b64chars_props _ (b64char_mem _ (by omega))).2.1⟩
    rw [show b64encodeRaw (a :: b :: c :: rest)
        = b64char (a / 4) :: b64char (a % 4 * 16 + b / 16)
          :: b64char (b % 16 * 4 + c / 64) :: b64char (c % 64) :: b64encodeRaw rest
        from rfl]
    simp

/-- Re-appending the stripped padding restores the raw base64
encoding. -/
theorem rstrip_pad_restore : ∀ (k : Nat) (bs : List Nat), bs.length ≤ k →
    (∀ x ∈ bs, x < 256) →
    rstripCharList '=' (b64encodeRaw bs)
      ++ List.replicate ((4 - (rstripCharList '=' (b64encodeRaw bs)).length % 4) % 4) '='
      = b64encodeRaw bs := by
  intro k
  induction k with
  | zero =>
    intro bs hk _
    have hnil : bs = [] := List.length_eq_zero.mp (Nat.le_zero.mp hk)
    subst hnil
    rfl
  | succ k ih =>
    intro bs hk hb
    match bs with
    | [] => rfl
    | [a] =>
      have ha : a < 256 := hb a (by simp)
      have h2 : b64char (a % 4 * 16) ≠ '=' :=
        (b64chars_props _ (b64char_mem _ (by omega))).2.1
      rw [show b64encodeRaw [a] = [b64char (a / 4), b64char (a % 4 * 16), '=', '='] from rfl]
      have hr : rstripCharList '=' [b64char (a / 4), b64char (a % 4 * 16), '=', '=']
          = [b64char (a / 4), b64char (a % 4 * 16)] := by
        simp [rstripCharList, List.dropWhile, h2]
      rw [hr]
      rfl
    | [a, b] =>
      have ha : a < 256 := hb a (by simp)
      have hbb : b < 256 := hb b (by simp)
      have h3 : b64char (b % 16 * 4) ≠ '=' :=
        (b64chars_props _ (b64char_mem _ (by omega))).2.1
      rw [show b64encodeRaw [a, b]
          = [b64char (a / 4), b64char (a % 4 * 16 + b / 16), b64char (b % 16 * 4), '=']
          from rfl]
      have hr : rstripCharList '='
            [b64char (a / 4), b64char (a % 4 * 16 + b / 16), b64char (b % 16 * 4), '=']
          = [b64char (a / 4), b64char (a % 4 * 16 + b / 16), b64char (b % 16 * 4)] := by
        simp [rstripCharList, List.dropWhile, h3]
      rw [hr]
      rfl
    | a :: b :: c :: rest =>
      have ha : a < 256 := hb a (by simp)
      have hbb : b < 256 := hb b (by simp)
      have hc : c < 256 := hb c (by simp)
      have h4 : b64char (c % 64) ≠ '=' :=
        (b64chars_props _ (b64char_mem _ (by omega))).2.1
      rw [show b64encodeRaw (a :: b :: c :: rest)
          = b64char (a / 4) :: b64char (a % 4 * 16 + b / 16)
            :: b64char (b % 16 * 4 + c / 64) :: b64char (c % 64) :: b64encodeRaw rest
          from rfl]
      by_cases hr0 : rest = []
      · subst hr0
        rw [show b64encodeRaw ([] : List Nat) = [] from rfl]
        have hr : rstripCharList '='
              (b64char (a / 4) :: b64char (a % 4 * 16 + b / 16)
                :: b64char (b % 16 * 4 + c / 64) :: b64char (c % 64) :: [])
            = [b64char (a / 4), b64char (a % 4 * 16 + b / 16),
               b64char (b % 16 * 4 + c / 64), b64char (c % 64)] := by
          simp [rstripCharList, List.dropWhile, h4]
        rw [hr]
        simp
      · have hex : ∃ x ∈ b64encodeRaw rest, x ≠ '=' :=
          b64encodeRaw_has_alpha rest hr0 (fun x hx => hb x (by simp [hx]))
        have hra : rstripCharList '='
              (b64char (a / 4) :: b64char (a % 4 * 16 + b / 16)
                :: b64char (b % 16 * 4 + c / 64) :: b64char (c % 64) :: b64encodeRaw rest)
            = [b64char (a / 4), b64char (a % 4 * 16 + b / 16),
               b64char (b % 16 * 4 + c / 64), b64char (c % 64)]
              ++ rstripCharList '=' (b64encodeRaw rest) := by
          have h5 := rstrip_append
            [b64char (a / 4), b64char (a % 4 * 16 + b / 16),
             b64char (b % 16 * 4 + c / 64), b64char (c % 64)]
            (b64encodeRaw rest) hex
          simpa using h5
        rw [hra]
        have hm : (4 - ([b64char (a / 4), b64char (a % 4 * 16 + b / 16),
              b64char (b % 16 * 4 + c / 64), b64char (c % 64)]
              ++ rstripCharList '=' (b64encodeRaw rest)).length % 4) % 4
            = (4 - (rstripCharList '=' (b64encodeRaw rest)).length % 4) % 4 := by
          simp only [List.length_append, List.length_cons, List.length_nil]
          omega
        rw [hm, List.append_assoc]
        rw [ih rest (by simp at hk; omega) (fun x hx => hb x (by simp [hx]))]
        rfl

/-- The encoder's `/`-to-`,` rewrite commutes with padding removal. -/
theorem rstrip_map_slash (l : List Char) :
    rstripCharList '=' (l.map (fun c => if c = '/' then ',' else c))
      = (rstripCharList '=' l).map (fun c => if c = '/' then ',' else c) := by
  unfold rstripCharList
  rw [show (l.map (fun c => if c = '/' then ',' else c)).reverse
      = l.reverse.map (fun c => if c = '/' then ',' else c)
      from (List.map_reverse _ l).symm]
  rw [List.dropWhile_map]
  have hp : ((fun x => decide (x = '=')) ∘ (fun c => if c = '/' then ',' else c))
      = (fun x => decide (x = '=')) := by
    funext c
    by_cases h : c = '/' <;> simp [h, Function.comp]
  rw [hp, List.map_reverse]

/-- The comma rewrite of the decoder undoes that of the encoder when
the original has no comma. -/
theorem map_slash_comma_inv (l : List Char) (h : ∀ c ∈ l, c ≠ ',') :
    (l.map (fun c => if c = '/' then ',' else c)).map
      (fun c => if c = ',' then '/' else c) = l := by
  induction l with
  | nil => rfl
  | cons c cs ih =>
    have hc : c ≠ ',' := h c (by simp)
    have ih2 := ih (fun x hx => h x (by simp [hx]))
    by_cases hcs : c = '/'
    · subst hcs
      simp [ih2]
    · simp [hcs, hc, ih2]

/-- All bytes of the UTF-16-BE encoding of BMP characters are bytes. -/
theorem utf16beBytes_lt : ∀ (l : List Char), (∀ c ∈ l, c.toNat < 0x10000) →
    ∀ x ∈ utf16beBytes l, x < 256 := by
  intro l
  induction l with
  | nil =>
    intro _ x hx
    simp [utf16beBytes] at hx
  | cons c cs ih =>
    intro h x hx
    have hc : c.toNat < 0x10000 := h c (by simp)
    simp only [utf16beBytes, hc, if_true, List.cons_append, List.nil_append,
      List.mem_cons] at hx
    rcases hx with rfl | rfl | hx
    · omega
    · omega
    · exact ih (fun y hy => h y (by simp [hy])) x hx

/-- Unfolding UTF-16-BE decode on a non-surrogate leading code unit. -/
theorem utf16beDecode_lo (b1 b2 : Nat) (rest : List Nat)
    (h1 : ¬(0xD800 ≤ b1 * 256 + b2 ∧ b1 * 256 + b2 ≤ 0xDBFF))
    (h2 : ¬(0xDC00 ≤ b1 * 256 + b2 ∧ b1 * 256 + b2 ≤ 0xDFFF)) :
    utf16beDecode (b1 :: b2 :: rest) = match utf16beDecode rest with
      | .ok tl => .ok (Char.ofNat (b1 * 256 + b2) :: tl)
      | .error e => .error e := by
  match rest with
  | [] =>
    show (if 0xD800 ≤ b1 * 256 + b2 ∧ b1 * 256 + b2 ≤ 0xDBFF then _ else _) = _
    rw [if_neg h1]
    show (if 0xDC00 ≤ b1 * 256 + b2 ∧ b1 * 256 + b2 ≤ 0xDFFF then _ else _) = _
    rw [if_neg h2]
  | [b3] =>
    show (if 0xD800 ≤ b1 * 256 + b2 ∧ b1 * 256 + b2 ≤ 0xDBFF then _ else _) = _
    rw [if_neg h1]
    show (if 0xDC00 ≤ b1 * 256 + b2 ∧ b1 * 256 + b2 ≤ 0xDFFF then _ else _) = _
    rw [if_neg h2]
  | b3 :: b4 :: rest2 =>
    show (if 0xD800 ≤ b1 * 256 + b2 ∧ b1 * 256 + b2 ≤ 0xDBFF then _ else _) = _
    rw [if_neg h1]
    show (if 0xDC00 ≤ b1 * 256 + b2 ∧ b1 * 256 + b2 ≤ 0xDFFF then _ else _) = _
    rw [if_neg h2]

/-- Round trip of UTF-16-BE on BMP characters (`Char` validity rules
out surrogate code points). -/
theorem utf16_roundtrip : ∀ (l : List Char), (∀ c ∈ l, c.toNat < 0x10000) →
    utf16beDecode (utf16beBytes l) = .ok l := by
  intro l
  induction l with
  | nil => intro _; rfl
  | cons c cs ih =>
    intro h
    have hc : c.toNat < 0x10000 := h c (by simp)
    have ih2 := ih (fun x hx => h x (by simp [hx]))
    have hval : c.toNat < 0xD800 ∨ (0xE000 ≤ c.toNat ∧ c.toNat < 0x110000) := by
      have h2 : c.val.toNat.isValidChar := c.valid
      rcases h2 with h2 | h2
      · exact Or.inl h2
      · exact Or.inr h2
    have hb : utf16beBytes (c :: cs)
        = c.toNat / 256 :: c.toNat % 256 :: utf16beBytes cs := by
      simp [utf16beBytes, hc]
    rw [hb]
    have hu : c.toNat / 256 * 256 + c.toNat % 256 = c.toNat := by omega
    have h1 : ¬(0xD800 ≤ c.toNat / 256 * 256 + c.toNat % 256
        ∧ c.toNat / 256 * 256 + c.toNat % 256 ≤ 0xDBFF) := by omega
    have h2 : ¬(0xDC00 ≤ c.toNat / 256 * 256 + c.toNat % 256
        ∧ c.toNat / 256 * 256 + c.toNat % 256 ≤ 0xDFFF) := by omega
    rw [utf16beDecode_lo _ _ _ h1 h2, ih2, hu, Char.ofNat_toNat]

/-- Characters of an encoded group body are 7-bit and avoid the
delimiters of the wire format. -/
theorem encGroupBody_chars (run : List Char) (hb : ∀ c ∈ run, c.toNat < 0x10000) :
    ∀ d ∈ encGroupBody run, d.toNat ≤ 127 ∧ d ≠ '-' ∧ d ≠ '&' ∧ d ≠ ' ' ∧ d ≠ '/' := by
  intro d hd
  unfold encGroupBody at hd
  have hd2 := rstrip_subset _ _ d hd
  rw [List.mem_map] at hd2
  obtain ⟨e, he, hde⟩ := hd2
  have hbytes := utf16beBytes_lt run hb
  have hcls := b64encodeRaw_chars (utf16beBytes run).length (utf16beBytes run)
    (le_refl _) hbytes e he
  subst hde
  by_cases hes : e = '/'
  · subst hes
    decide
  · rcases hcls with hmem | rfl
    · have hp := b64chars_props e hmem
      rw [if_neg hes]
      exact ⟨hp.1, hp.2.2.1, hp.2.2.2.1, hp.2.2.2.2.1, hes⟩
    · decide

/-- The body of an encoded group of a nonempty run is nonempty. -/
theorem encGroupBody_ne_nil (run : List Char) (hne : run ≠ [])
    (hb : ∀ c ∈ run, c.toNat < 0x10000) : encGroupBody run ≠ [] := by
  unfold encGroupBody
  apply rstrip_ne_nil
  have hbne : utf16beBytes run ≠ [] := by
    match run with
    | [] => exact absurd rfl hne
    | c :: cs =>
      by_cases hc : c.toNat < 0x10000 <;> simp [utf16beBytes, hc]
  obtain ⟨x, hx, hxne⟩ := b64encodeRaw_has_alpha (utf16beBytes run) hbne
    (utf16beBytes_lt run hb)
  refine ⟨(if x = '/' then ',' else x), List.mem_map_of_mem _ hx, ?_⟩
  by_cases hxs : x = '/'
  · simp [hxs]
  · simpa [hxs] using hxne

/-- The decoder's group handler inverts the encoder's group body. -/
theorem decodeGroup_encGroupBody (run : List Char) (hb : ∀ c ∈ run, c.toNat < 0x10000) :
    decodeGroup (encGroupBody run) = .ok run := by
  have hbytes := utf16beBytes_lt run hb
  have h1 : (encGroupBody run).map (fun c => if c = ',' then '/' else c)
      = rstripCharList '=' (b64encodeRaw (utf16beBytes run)) := by
    unfold encGroupBody
    rw [rstrip_map_slash]
    apply map_slash_comma_inv
    intro c hc
    have hc2 := rstrip_subset _ _ c hc
    rcases b64encodeRaw_chars (utf16beBytes run).length (utf16beBytes run)
        (le_refl _) hbytes c hc2 with hmem | rfl
    · exact (b64chars_props c hmem).2.2.2.2.2.2
    · decide
  have hpad : (encGroupBody run).map (fun c => if c = ',' then '/' else c)
      ++ List.replicate
        ((4 - ((encGroupBody run).map (fun c => if c = ',' then '/' else c)).length % 4) % 4) '='
      = b64encodeRaw (utf16beBytes run) := by
    rw [h1]
    exact rstrip_pad_restore (utf16beBytes run).length _ (le_refl _) hbytes
  have hfinal : decodeGroup (encGroupBody run)
      = Except.bind (b64decodeModel (b64encodeRaw (utf16beBytes run))) utf16beDecode := by
    show Except.bind (b64decodeModel _) utf16beDecode = _
    rw [hpad]
  rw [hfinal, b64_roundtrip (utf16beBytes run).length _ (le_refl _) hbytes]
  show utf16beDecode (utf16beBytes run) = .ok run
  exact utf16_roundtrip run hb

/-- The slash-to-dot rewrite is the identity on slash-free lists. -/
theorem mapDot_id (l : List Char) (h : ∀ c ∈ l, c ≠ '/') : mapDot l = l := by
  induction l with
  | nil => rfl
  | cons c cs ih =>
    have hc : c ≠ '/' := h c (by simp)
    have ih2 := ih (fun x hx => h x (by simp [hx]))
    simp only [mapDot, List.map_cons, if_neg hc] at ih2 ⊢
    rw [ih2]

/-- An ampersand-free prefix preserves the no-ampersand-dash chain. -/
theorem chain'_no_amp_append (x y : List Char) (hx : ∀ a ∈ x, a ≠ '&')
    (hy : List.Chain' (fun a b => ¬(a = '&' ∧ b = '-')) y) :
    List.Chain' (fun a b => ¬(a = '&' ∧ b = '-')) (x ++ y) := by
  induction x with
  | nil => simpa using hy
  | cons a xs ih =>
    rw [List.cons_append, List.chain'_cons']
    refine ⟨?_, ih (fun b hb => hx b (by simp [hb]))⟩
    intro b _
    exact fun hab => (hx a (by simp)) hab.1

/-- The ampersand-dash collapse of the decoder is the identity when no
ampersand is immediately followed by a dash. -/
theorem replAmpDash_id : ∀ (l : List Char),
    List.Chain' (fun a b => ¬(a = '&' ∧ b = '-')) l → replAmpDash l = l := by
  intro l
  induction l with
  | nil => intro _; rfl
  | cons c cs ih =>
    intro h
    cases cs with
    | nil => rfl
    | cons d rest =>
      rw [List.chain'_cons] at h
      show (if c = '&' ∧ d = '-' then _ else _) = _
      rw [if_neg h.1]
      rw [ih h.2]

/-- The ampersand escape of the encoder is the identity on
ampersand-free lists. -/
theorem expandAmp_id (l : List Char) (h : ∀ c ∈ l, c ≠ '&') : expandAmp l = l := by
  induction l with
  | nil => rfl
  | cons c cs ih =>
    have hc : c ≠ '&' := h c (by simp)
    have ih2 := ih (fun x hx => h x (by simp [hx]))
    simp only [expandAmp, List.map_cons, List.flatten_cons, if_neg hc] at ih2 ⊢
    rw [ih2]
    rfl

/-- The encode scan does not depend on its fuel, as long as the fuel
covers the input length. -/
theorem encodeRunsF_fuel : ∀ (k n m : Nat) (l : List Char), l.length ≤ n → l.length ≤ m →
    l.length ≤ k → encodeRunsF n l = encodeRunsF m l := by
  intro k
  induction k with
  | zero =>
    intro n m l _ _ hk
    have hl : l = [] := List.length_eq_zero.mp (Nat.le_zero.mp hk)
    subst hl
    cases n <;> cases m <;> rfl
  | succ k ih =>
    intro n m l hn hm hk
    cases l with
    | nil => cases n <;> cases m <;> rfl
    | cons c cs =>
      cases n with
      | zero => simp at hn
      | succ n2 =>
        cases m with
        | zero => simp at hm
        | succ m2 =>
          simp only [List.length_cons, Nat.succ_le_succ_iff] at hn hm hk
          have hcs : encodeRunsF n2 cs = encodeRunsF m2 cs := ih n2 m2 cs hn hm hk
          have hdrop : encodeRunsF n2 (cs.dropWhile isHiChar)
              = encodeRunsF m2 (cs.dropWhile isHiChar) := by
            have hlen : (cs.dropWhile isHiChar).length ≤ cs.length :=
              (List.dropWhile_sublist isHiChar).length_le
            exact ih n2 m2 _ (by omega) (by omega) (by omega)
          simp only [encodeRunsF, hcs, hdrop]

/-- Unfolding the encode scan on a literal (non-class) character. -/
theorem encodeRuns_cons_lit (c : Char) (cs : List Char) (h : isHiChar c = false) :
    encodeRuns (c :: cs) = c :: encodeRuns cs := by
  show encodeRunsF (cs.length + 1) (c :: cs) = _
  simp [encodeRuns, encodeRunsF, h]

/-- Unfolding the encode scan on the head of a class-character run. -/
theorem encodeRuns_cons_hi (c : Char) (cs : List Char) (h : isHiChar c = true) :
    encodeRuns (c :: cs) = encGroup (c :: cs.takeWhile isHiChar)
      ++ encodeRuns (cs.dropWhile isHiChar) := by
  show encodeRunsF (cs.length + 1) (c :: cs) = _
  have hfuel : encodeRunsF cs.length (cs.dropWhile isHiChar)
      = encodeRunsF (cs.dropWhile isHiChar).length (cs.dropWhile isHiChar) := by
    have hlen : (cs.dropWhile isHiChar).length ≤ cs.length :=
      (List.dropWhile_sublist isHiChar).length_le
    exact encodeRunsF_fuel cs.length cs.length _ _ hlen (le_refl _) hlen
  simp [encodeRuns, encodeRunsF, h, hfuel]

/-- Core round-trip invariant of the scans: for inputs with no
ampersand, no space, and only BMP characters, the decode scan inverts
the encode scan after the slash-to-dot rewrite; moreover the encoded
form has no ampersand-dash pair after that rewrite, and is 7-bit and
space-free. -/
theorem encodeRuns_roundtrip : ∀ (k : Nat) (l : List Char), l.length ≤ k →
    (∀ c ∈ l, c.toNat ≤ 0xFFFF ∧ c ≠ '&' ∧ c ≠ ' ') →
    subDecode (mapDot (encodeRuns l)) = .ok (mapDot l) ∧
    List.Chain' (fun a b => ¬(a = '&' ∧ b = '-')) (mapDot (encodeRuns l)) ∧
    (∀ d ∈ encodeRuns l, d ≠ ' ' ∧ d.toNat ≤ 127) := by
  intro k
  induction k with
  | zero =>
    intro l hk _
    have hl : l = [] := List.length_eq_zero.mp (Nat.le_zero.mp hk)
    subst hl
    refine ⟨rfl, by simp [encodeRuns, encodeRunsF, mapDot], ?_⟩
    intro d hd
    simp [encodeRuns, encodeRunsF] at hd
  | succ k ih =>
    intro l hk hl
    cases l with
    | nil =>
      refine ⟨rfl, by simp [encodeRuns, encodeRunsF, mapDot], ?_⟩
      intro d hd
      simp [encodeRuns, encodeRunsF] at hd
    | cons c cs =>
      simp only [List.length_cons, Nat.succ_le_succ_iff] at hk
      have hc := hl c (by simp)
      by_cases hhi : isHiChar c = true
      · -- a run of class characters is encoded as a group
        have hE := encodeRuns_cons_hi c cs hhi
        have hrunhi : ∀ x ∈ c :: cs.takeWhile isHiChar, isHiChar x = true := by
          intro x hx
          rcases List.mem_cons.mp hx with rfl | hx2
          · exact hhi
          · exact List.mem_takeWhile_imp hx2
        have hrunbmp : ∀ x ∈ c :: cs.takeWhile isHiChar, x.toNat < 0x10000 := by
          intro x hx
          have h2 := hrunhi x hx
          simp only [isHiChar, Bool.and_eq_true, decide_eq_true_eq] at h2
          omega
        have hbody := encGroupBody_chars _ hrunbmp
        have hbne : encGroupBody (c :: cs.takeWhile isHiChar) ≠ [] :=
          encGroupBody_ne_nil _ (by simp) hrunbmp
        have hdec := decodeGroup_encGroupBody _ hrunbmp
        have hlen : (cs.dropWhile isHiChar).length ≤ cs.length :=
          (List.dropWhile_sublist isHiChar).length_le
        obtain ⟨ih1, ih2, ih3⟩ := ih (cs.dropWhile isHiChar) (by omega)
          (fun x hx => hl x (by simp [(List.dropWhile_sublist isHiChar).subset hx]))
        have hgid : mapDot (encGroup (c :: cs.takeWhile isHiChar))
            = encGroup (c :: cs.takeWhile isHiChar) := by
          apply mapDot_id
          intro x hx
          rw [show encGroup (c :: cs.takeWhile isHiChar)
              = '&' :: (encGroupBody (c :: cs.takeWhile isHiChar) ++ ['-']) from rfl] at hx
          rcases List.mem_cons.mp hx with rfl | hx2
          · decide
          · rcases List.mem_append.mp hx2 with hx3 | hx3
            · exact (hbody x hx3).2.2.2.2
            · rw [List.mem_singleton] at hx3
              subst hx3
              decide
        have happ : ∀ x y : List Char, mapDot (x ++ y) = mapDot x ++ mapDot y :=
          fun x y => by simp [mapDot]
        have hmd : mapDot (encodeRuns (c :: cs))
            = '&' :: (encGroupBody (c :: cs.takeWhile isHiChar)
                ++ '-' :: mapDot (encodeRuns (cs.dropWhile isHiChar))) := by
          rw [hE, happ, hgid]
          simp [encGroup, List.append_assoc]
        refine ⟨?_, ?_, ?_⟩
        · rw [hmd, subDecode_group _ _ hbne (fun x hx => (hbody x hx).2.1), hdec, ih1]
          have hrunid : mapDot (c :: cs.takeWhile isHiChar) = c :: cs.takeWhile isHiChar := by
            apply mapDot_id
            intro x hx
            have h2 := hrunhi x hx
            intro hxeq
            subst hxeq
            exact absurd h2 (by decide)
          have hsplit : mapDot (c :: cs)
              = (c :: cs.takeWhile isHiChar) ++ mapDot (cs.dropWhile isHiChar) := by
            calc mapDot (c :: cs)
                = mapDot ((c :: cs.takeWhile isHiChar) ++ cs.dropWhile isHiChar) := by
                  rw [show (c :: cs.takeWhile isHiChar) ++ cs.dropWhile isHiChar = c :: cs from by
                    rw [List.cons_append, List.takeWhile_append_dropWhile]]
              _ = mapDot (c :: cs.takeWhile isHiChar) ++ mapDot (cs.dropWhile isHiChar) :=
                  happ _ _
              _ = (c :: cs.takeWhile isHiChar) ++ mapDot (cs.dropWhile isHiChar) := by
                  rw [hrunid]
          rw [hsplit]
        · rw [hmd, List.chain'_cons']
          constructor
          · intro b hb
            cases hbc : encGroupBody (c :: cs.takeWhile isHiChar) with
            | nil => exact absurd hbc hbne
            | cons b0 bs =>
              simp only [hbc, List.cons_append, List.head?_cons, Option.mem_def,
                Option.some.injEq] at hb
              subst hb
              intro hab
              exact (hbody b0 (by rw [hbc]; simp)).2.1 hab.2
          · apply chain'_no_amp_append
            · intro a ha
              exact (hbody a ha).2.2.1
            · rw [List.chain'_cons']
              exact ⟨fun b _ hab => absurd hab.1 (by decide), ih2⟩
        · intro d hd
          rw [hE] at hd
          rcases List.mem_append.mp hd with hd2 | hd2
          · rw [show encGroup (c :: cs.takeWhile isHiChar)
                = '&' :: (encGroupBody (c :: cs.takeWhile isHiChar) ++ ['-']) from rfl] at hd2
            rcases List.mem_cons.mp hd2 with rfl | hd3
            · exact ⟨by decide, by decide⟩
            · rcases List.mem_append.mp hd3 with hd4 | hd4
              · exact ⟨(hbody d hd4).2.2.2.1, (hbody d hd4).1⟩
              · rw [List.mem_singleton] at hd4
                subst hd4
                exact ⟨by decide, by decide⟩
          · exact ih3 d hd2
      · -- a literal character passes through both scans
        have hfalse : isHiChar c = false := by simpa using hhi
        have hE := encodeRuns_cons_lit c cs hfalse
        have hlow : c.toNat < 0x80 := by
          have h2 : ¬(0x80 ≤ c.toNat ∧ c.toNat ≤ 0xFFFF) := by
            simpa [isHiChar] using hhi
          have h3 := hc.1
          omega
        obtain ⟨ih1, ih2, ih3⟩ := ih cs (by omega) (fun x hx => hl x (by simp [hx]))
        have hcd : (if c = '/' then '.' else c) ≠ '&' := by
          by_cases hcs2 : c = '/'
          · subst hcs2
            decide
          · rw [if_neg hcs2]
            exact hc.2.1
        have hmd2 : mapDot (c :: encodeRuns cs)
            = (if c = '/' then '.' else c) :: mapDot (encodeRuns cs) := by
          simp [mapDot]
        refine ⟨?_, ?_, ?_⟩
        · rw [hE, hmd2, subDecode_cons_lit _ _ hcd, ih1]
          rfl
        · rw [hE, hmd2, List.chain'_cons']
          exact ⟨fun b _ hab => hcd hab.1, ih2⟩
        · rw [hE]
          intro d hd
          rcases List.mem_cons.mp hd with rfl | hd2
          · exact ⟨hc.2.2, by omega⟩
          · exact ih3 d hd2

/-- C5 (amended): the encode/decode pair round-trips folder names up to
the `/`-to-`.` separator rewrite of `encode_folder`, provided the name
contains no space (which would trigger the quoting step of
`encode_imap_utf7`), no ampersand, and only characters up to U+FFFF:
`decode_imap_utf7 (encode_folder name)` succeeds with
`replaceChar '/' '.' name`. -/
theorem C5_roundtrip_amended (name : String)
    (h : ∀ c ∈ name.data, c.toNat ≤ 0xFFFF ∧ c ≠ '&' ∧ c ≠ ' ') :
    decode_imap_utf7 (encode_folder name) = .ok (replaceChar '/' '.' name) := by
  obtain ⟨h1, h2, h3⟩ := encodeRuns_roundtrip name.data.length name.data (le_refl _) h
  have hexp : expandAmp name.data = name.data := expandAmp_id _ (fun c hc => (h c hc).2.1)
  have hc1 : ' ' ∉ encodeRuns name.data := fun hmem => (h3 ' ' hmem).1 rfl
  have hc2 : (encodeRuns name.data).any (fun c => 127 < c.toNat) = false := by
    rw [List.any_eq_false]
    intro x hx
    simpa using Nat.not_lt.mpr (h3 x hx).2
  have henc : encode_imap_utf7 name = ⟨encodeRuns name.data⟩ := by
    show (if (encodeRuns (expandAmp name.data)).contains ' '
          || (encodeRuns (expandAmp name.data)).any (fun c => 127 < c.toNat) then
        (⟨'"' :: encodeRuns (expandAmp name.data) ++ ['"']⟩ : String)
      else ⟨encodeRuns (expandAmp name.data)⟩) = ⟨encodeRuns name.data⟩
    rw [hexp]
    rw [if_neg (by simpa [hc2] using hc1)]
  have hef : encode_folder name = ⟨mapDot (encodeRuns name.data)⟩ := by
    unfold encode_folder
    rw [henc]
    rfl
  rw [hef]
  have hrepl : replAmpDash (mapDot (encodeRuns name.data))
      = mapDot (encodeRuns name.data) := replAmpDash_id _ h2
  have hd : decode_imap_utf7 ⟨mapDot (encodeRuns name.data)⟩
      = Except.bind (subDecode (replAmpDash (mapDot (encodeRuns name.data))))
          (fun r => .ok (⟨r⟩ : String)) := rfl
  rw [hd, hrepl, h1]
  rfl

/-- Witness for the amended C5 round trip at the concrete name
`"Café"`. -/
theorem C5_roundtrip_amended_witness :
    (∀ c ∈ ("Café" : String).data, c.toNat ≤ 0xFFFF ∧ c ≠ '&' ∧ c ≠ ' ') ∧
    decode_imap_utf7 (encode_folder "Café") = .ok (replaceChar '/' '.' "Café") :=
  ⟨by decide, C5_roundtrip_amended "Café" (by decide)⟩

end MailMigration
